import Mathlib

/-!
Shallow embedding of the CamelotCrown engine core (src/lib/camelot):
board geometry and coordinates (board.ts / coordinates.ts), the rules
primitives and step executor (logic.ts), the legal-turn generator
(moveGenerator.ts), the evaluator (evaluator.ts), the Zobrist hash and
transposition table (transposition.ts), and the iterative-deepening
alpha-beta search (search.ts).

Modelling conventions:
* a square "F16" is embedded as the pair (file, rank) : Int × Int with
  file A..L = 0..11; the source's parseSquare / toSquare round-trip between
  the string and this pair, so the pair is the canonical datum.  Squares
  that the source would render as strings outside A..L / 1..16 are simply
  pairs that are not members of ALL_SQUARES, exactly as the source's
  isValidSquare rejects them;
* a JS `Record<string, Piece | null>` board is embedded as a total function
  Square → Option Piece (absent and null keys both read as none);
* `piece.type` / `piece.color` strings are embedded as two-valued
  inductives, per the data model (kind ∈ {Man, Knight}, color ∈
  {White, Black});
* JS numbers are embedded as ℚ where fractional values occur (evaluator
  scores), as Int/Nat where the source only produces integers, and the
  search's ±Infinity sentinels as a dedicated JSNum type;
* `Math.random()` draws and `Date.now()` reads are abstracted as oracle
  streams passed in explicitly and consumed in source order.
-/

namespace Camelot

/-- Piece kind, `type: "man" | "knight"` in types.ts. -/
inductive PieceType where
  | man
  | knight
deriving DecidableEq, Repr

/-- Piece color, `color: "white" | "black"` in types.ts. -/
inductive Color where
  | white
  | black
deriving DecidableEq, Repr

/-- The opposite color (`playerColor === "white" ? "black" : "white"`). -/
def Color.opp : Color → Color
  | .white => .black
  | .black => .white

/-- A piece: `{ type, color }`. -/
structure Piece where
  type : PieceType
  color : Color
deriving DecidableEq, Repr

/-- A board square as (file, rank); file A..L = 0..11, rank 1..16. -/
abbrev Square : Type := Int × Int

/-- A board snapshot: `Record<string, Piece | null>` from types.ts. -/
abbrev BoardState : Type := Square → Option Piece

/-- `GameState` from types.ts. -/
structure GameState where
  white_castle_moves : Nat
  black_castle_moves : Nat
  board_state : BoardState

/-- `TurnState` from types.ts. -/
structure TurnState where
  moves : List Square
  capturedSquares : List Square
  mustContinue : Bool
deriving DecidableEq, Repr

namespace Board

/-- The files present on a given rank of the cross-shaped board
(board.ts `ALL_SQUARES`, §6 of the rules: rank 1 and 16 are {F,G},
2 and 15 are {C..J}, 3 and 14 are {B..K}, 4..13 are full rows). -/
def rowFiles (r : Int) : List Int :=
  if r = 1 ∨ r = 16 then [5, 6]
  else if r = 2 ∨ r = 15 then [2, 3, 4, 5, 6, 7, 8, 9]
  else if r = 3 ∨ r = 14 then [1, 2, 3, 4, 5, 6, 7, 8, 9, 10]
  else [0, 1, 2, 3, 4, 5, 6, 7, 8, 9, 10, 11]

/-- The fixed ordered list of the 160 addressable squares, rank-major
ascending with files ascending inside a rank, as listed in board.ts. -/
def ALL_SQUARES : List Square :=
  (List.range 16).flatMap (fun i =>
    let r : Int := (i : Int) + 1
    (rowFiles r).map (fun f => (f, r)))

/-- White's castle squares F1 and G1. -/
def WHITE_CASTLE : List Square := [(5, 1), (6, 1)]

/-- Black's castle squares F16 and G16. -/
def BLACK_CASTLE : List Square := [(5, 16), (6, 16)]

end Board

namespace Coordinates

/-- The eight unit directions, in the order listed in coordinates.ts. -/
def DIRECTIONS : List Square :=
  [(0, 1), (0, -1), (1, 0), (-1, 0), (1, 1), (-1, -1), (1, -1), (-1, 1)]

/-- `Coordinates.isValidSquare`: membership in the addressable set. -/
def isValidSquare (sq : Square) : Bool :=
  decide (sq ∈ Board.ALL_SQUARES)

/-- `Coordinates.isOneAdjacent`: Chebyshev distance exactly 1. -/
def isOneAdjacent (a b : Square) : Bool :=
  let df := (a.1 - b.1).natAbs
  let dr := (a.2 - b.2).natAbs
  decide ((df = 1 ∧ dr = 0) ∨ (df = 0 ∧ dr = 1) ∨ (df = 1 ∧ dr = 1))

/-- `Coordinates.isTwoAdjacent`: Chebyshev distance exactly 2 along a line. -/
def isTwoAdjacent (a b : Square) : Bool :=
  let df := (a.1 - b.1).natAbs
  let dr := (a.2 - b.2).natAbs
  decide ((df = 2 ∧ dr = 0) ∨ (df = 0 ∧ dr = 2) ∨ (df = 2 ∧ dr = 2))

/-- `Coordinates.getAdjacentSquare`: offset by a direction, none if the
result is off the board. -/
def getAdjacentSquare (sq d : Square) : Option Square :=
  let n : Square := (sq.1 + d.1, sq.2 + d.2)
  if isValidSquare n then some n else none

/-- `Coordinates.getDirection`: each component normalized to -1/0/1.
The source's `if (!direction)` null-check is dead code (a JS array is
always truthy), so the embedding returns the pair directly. -/
def getDirection (a b : Square) : Square :=
  ((b.1 - a.1).sign, (b.2 - a.2).sign)

end Coordinates

namespace Logic

/-- `Logic.createEmptyTurnState`. -/
def createEmptyTurnState (startSquare : Square) : TurnState :=
  { moves := [startSquare], capturedSquares := [], mustContinue := false }

/-- `Logic.isValidPlainMove`: one step into an empty square. -/
def isValidPlainMove (fr toSq : Square) (b : BoardState) : Bool :=
  Coordinates.isOneAdjacent fr toSq && (b toSq).isNone

/-- `Logic.isValidCanter`: two-adjacent leap over a friendly middle piece
onto an empty square; returns the middle square on success. -/
def isValidCanter (fr toSq : Square) (b : BoardState) (c : Color) :
    Option Square :=
  if ¬ Coordinates.isTwoAdjacent fr toSq then none
  else
    let direction := Coordinates.getDirection fr toSq
    match Coordinates.getAdjacentSquare fr direction with
    | none => none
    | some middle =>
      match b middle with
      | none => none
      | some mp =>
        if mp.color ≠ c then none
        else if (b toSq).isSome then none
        else some middle

/-- `Logic.isValidJump`: two-adjacent leap over an enemy middle piece onto
an empty square; returns the middle square on success. -/
def isValidJump (fr toSq : Square) (b : BoardState) (c : Color) :
    Option Square :=
  if ¬ Coordinates.isTwoAdjacent fr toSq then none
  else
    let direction := Coordinates.getDirection fr toSq
    match Coordinates.getAdjacentSquare fr direction with
    | none => none
    | some middle =>
      match b middle with
      | none => none
      | some mp =>
        if mp.color = c then none
        else if (b toSq).isSome then none
        else some middle

/-- `Logic.checkFirstMovePossibleJumps`: every landing square of a legal
single-step jump available to `c` anywhere on the board. -/
def checkFirstMovePossibleJumps (b : BoardState) (c : Color) : List Square :=
  Board.ALL_SQUARES.flatMap (fun square =>
    match b square with
    | none => []
    | some p =>
      if p.color = c then
        Coordinates.DIRECTIONS.flatMap (fun d =>
          match Coordinates.getAdjacentSquare square d with
          | none => []
          | some oneStep =>
            match Coordinates.getAdjacentSquare oneStep d with
            | none => []
            | some twoStep =>
              if (isValidJump square twoStep b c).isSome then [twoStep]
              else [])
      else [])

end Logic

/-- One legal continuation, tagged with its step kind.  logic.ts computes
`{ type: "jump" | "canter"; square }` records internally; the snapshot's
moveGenerator.ts consumes them (as `LegalMove` with field `to`), so the
embedding keeps the tag instead of the final `.map(move => move.square)`
projection. -/
inductive StepType where
  | jump
  | canter
deriving DecidableEq, Repr

/-- A legal next move from the current square. -/
structure LegalMove where
  type : StepType
  toSquare : Square
deriving DecidableEq, Repr

/-- The success payload of `StepResult` from types.ts. -/
structure StepOk where
  newBoardState : BoardState
  newTurnState : TurnState
  legalNextMoves : List LegalMove
  message : String

/-- `StepResult`: `{ success: true, ... } | { success: false, error }`. -/
inductive StepResult where
  | ok (r : StepOk)
  | error (msg : String)

namespace Logic

/-- The direction scan of `Logic.executeStep` that gathers the legal
next moves from the landing square `toSq` over the updated board: jump
continuations (knight-gated during a charge), else canter continuations
when no jump has happened this turn (never into the own castle). -/
def nextMoveCandidates (toSq : Square) (nb : BoardState) (c : Color)
    (ownCastle : List Square)
    (hasJumpedThisTurn hasJumpedThisMove wouldBeCharge isKnight : Bool) :
    List LegalMove :=
  Coordinates.DIRECTIONS.flatMap (fun d =>
    match Coordinates.getAdjacentSquare toSq d with
    | none => []
    | some oneStep =>
      match Coordinates.getAdjacentSquare oneStep d with
      | none => []
      | some twoStep =>
        if (isValidJump toSq twoStep nb c).isSome ∧
            (¬ wouldBeCharge ∨ isKnight) then
          [{ type := .jump, toSquare := twoStep }]
        else if hasJumpedThisTurn ∨ hasJumpedThisMove then []
        else
          match isValidCanter toSq twoStep nb c with
          | some _ =>
            if ¬ twoStep ∈ ownCastle then
              [{ type := .canter, toSquare := twoStep }]
            else []
          | none => [])

/-- The new board after moving `piece` from `fr` to `toSq`, removing the
jumped piece when the step is a jump (later JS assignments win, hence
the outer updates). -/
def stepBoard (toSq fr : Square) (b : BoardState) (piece : Piece)
    (jumpRes : Option Square) : BoardState :=
  let movedBoard : BoardState :=
    Function.update (Function.update b toSq (some piece)) fr none
  match jumpRes with
  | some middle => Function.update movedBoard middle none
  | none => movedBoard

/-- The new turn state after the step: the path extended by `toSq`, the
captures extended by the jumped square when the step is a jump. -/
def stepTurnState (toSq : Square) (ts : TurnState)
    (jumpRes : Option Square) : TurnState :=
  { moves := ts.moves ++ [toSq],
    capturedSquares :=
      match jumpRes with
      | some middle => ts.capturedSquares ++ [middle]
      | none => ts.capturedSquares,
    mustContinue := false }

/-- The execution half of `Logic.executeStep`, entered once the step has
been validated: apply the move and the capture, end the turn on an
opponent-castle landing or a plain move, else gather the continuations
and the continuation obligation. -/
def executeStepExec (toSq fr : Square) (b : BoardState) (ts : TurnState)
    (c : Color) (piece : Piece) (ownCastle oppCastle : List Square) :
    StepResult :=
  let jumpRes := isValidJump fr toSq b c
  let newBoardState := stepBoard toSq fr b piece jumpRes
  let newTurnState := stepTurnState toSq ts jumpRes
  -- Landing in the opponent's castle ends the turn
  if toSq ∈ oppCastle then
    .ok { newBoardState, newTurnState, legalNextMoves := [],
          message := "Landing in your opponents castle ends your turn" }
  else if isValidPlainMove fr toSq b then
    .ok { newBoardState, newTurnState, legalNextMoves := [],
          message := "" }
  else
    -- Determine legal next moves from the landing square
    let totalCapturedSquares :=
      ts.capturedSquares.length + (if jumpRes.isSome then 1 else 0)
    let legalNextMoves :=
      let legalNext₀ : List LegalMove :=
        nextMoveCandidates toSq newBoardState c ownCastle
          (decide (ts.capturedSquares.length > 0)) jumpRes.isSome
          (decide (totalCapturedSquares < ts.moves.length))
          (decide (piece.type = PieceType.knight))
      -- If jumps are available, filter out all other moves
      if legalNext₀.any (fun m => m.type = StepType.jump) then
        legalNext₀.filter (fun m => m.type = StepType.jump)
      else legalNext₀
    -- Continuation status
    let canJump := legalNextMoves.any (fun m => m.type = StepType.jump)
    if toSq = ts.moves.headI then
      .ok { newBoardState,
            newTurnState := { newTurnState with mustContinue := true },
            legalNextMoves,
            message := "Cannot complete turn on starting square" }
    else if canJump then
      .ok { newBoardState,
            newTurnState := { newTurnState with mustContinue := true },
            legalNextMoves,
            message := "You are obligated to jump" }
    else
      .ok { newBoardState, newTurnState, legalNextMoves, message := "" }

/-- `Logic.executeStep` from logic.ts: validate the step from the last
visited square to `toSq` (the validation half), then apply it via
`executeStepExec`. -/
def executeStep (toSq : Square) (b : BoardState) (ts : TurnState)
    (c : Color) : StepResult :=
  match ts.moves.getLast? with
  | none => .error "No piece at current position"
  | some fr =>
    match b fr with
    | none => .error "No piece at current position"
    | some piece =>
      if piece.color ≠ c then .error "No piece at current position"
      else
        -- Determine move type
        let plainValid := isValidPlainMove fr toSq b
        let canterRes := isValidCanter fr toSq b c
        let jumpRes := isValidJump fr toSq b c
        if ¬ plainValid ∧ canterRes = none ∧ jumpRes = none then
          .error "Invalid move"
        else
          -- If this is a plain move, it must be the first move
          let isFirstMove := ts.moves.length = 1
          if plainValid ∧ ¬ isFirstMove then
            .error "Can only make a plain move on the first step"
          else
            -- After any jump this turn, only jumps may continue
            let hasJumpedThisTurn := ts.capturedSquares.length > 0
            if hasJumpedThisTurn ∧ jumpRes = none then
              .error "Must continue jumping"
            else
              -- Only knights can jump after cantering (charge)
              let totalCapturedSquares :=
                ts.capturedSquares.length + (if jumpRes.isSome then 1 else 0)
              let isCharge :=
                jumpRes.isSome ∧ totalCapturedSquares < ts.moves.length
              if isCharge ∧ ¬ (piece.type = PieceType.knight) then
                .error "Only knights can jump after cantering"
              else
                executeStepExec toSq fr b ts c piece
                  (if c = .white then Board.WHITE_CASTLE
                   else Board.BLACK_CASTLE)
                  (if c = .white then Board.BLACK_CASTLE
                   else Board.WHITE_CASTLE)

/-- `Logic.getInitialMoves`: the legal first steps for the piece on
`square`.  When any jump is available anywhere, only jumps from this
square are offered; otherwise plain moves and canters (never into the own
castle). -/
def getInitialMoves (square : Square) (b : BoardState) (c : Color) :
    List Square :=
  match b square with
  | none => []
  | some piece =>
    if piece.color ≠ c then []
    else
      let possibleJumps := checkFirstMovePossibleJumps b c
      if possibleJumps.length > 0 then
        possibleJumps.filter (fun j => (isValidJump square j b c).isSome)
      else
        let ownCastle :=
          if c = .white then Board.WHITE_CASTLE else Board.BLACK_CASTLE
        Coordinates.DIRECTIONS.flatMap (fun d =>
          match Coordinates.getAdjacentSquare square d with
          | none => []
          | some oneStep =>
            (if (b oneStep) = none ∧ ¬ oneStep ∈ ownCastle then [oneStep]
             else []) ++
            match Coordinates.getAdjacentSquare oneStep d with
            | none => []
            | some twoStep =>
              match isValidCanter square twoStep b c with
              | some _ =>
                if ¬ twoStep ∈ ownCastle then [twoStep] else []
              | none => [])

/-- The display name of a square, `toSquare` in coordinates.ts:
file letter A..L followed by the decimal rank. -/
def squareName (sq : Square) : String :=
  String.mk [Char.ofNat (65 + sq.1).toNat] ++ toString sq.2

/-- `Logic.getTurnNotation` (renamed: appends the visited squares with
an `x` separator when any capture occurred, `-` otherwise; empty for
fewer than two visited squares). -/
def getTurnNotationStr (ts : TurnState) : String :=
  if ts.moves.length < 2 then ""
  else if ts.capturedSquares.length > 0 then
    String.intercalate "x" (ts.moves.map squareName)
  else
    String.intercalate "-" (ts.moves.map squareName)

/-- `Logic.checkWinCondition`: castle occupation, capture-all, or
stalemate, else none. -/
def checkWinCondition (b : BoardState) (c : Color) : Option String :=
  let opponentColor := c.opp
  let opponentCastle :=
    if c = .white then Board.BLACK_CASTLE else Board.WHITE_CASTLE
  let piecesInCastle :=
    (opponentCastle.filter (fun sq =>
      match b sq with
      | some p => p.color = c
      | none => false)).length
  if piecesInCastle ≥ 2 then some "castle_occupation"
  else
    let playerPieces :=
      (Board.ALL_SQUARES.filter (fun sq =>
        match b sq with
        | some p => p.color = c
        | none => false)).length
    let opponentPieces :=
      (Board.ALL_SQUARES.filter (fun sq =>
        match b sq with
        | some p => p.color = opponentColor
        | none => false)).length
    if opponentPieces = 0 ∧ playerPieces ≥ 2 then some "capture_all"
    else
      if playerPieces ≥ 2 then
        let opponentHasMoves :=
          Board.ALL_SQUARES.any (fun sq =>
            match b sq with
            | some p =>
              p.color = opponentColor ∧
                (getInitialMoves sq b opponentColor).length > 0
            | none => false)
        if ¬ opponentHasMoves then some "stalemate" else none
      else none

end Logic

/-- `CompleteTurn` from moveGenerator.ts (the `notation` field is renamed
`notationStr`). -/
structure CompleteTurn where
  notationStr : String
  startSquare : Square
  endSquare : Square
  moves : List Square
  capturedSquares : List Square
  finalBoardState : BoardState
  isForced : Bool

instance : Inhabited CompleteTurn :=
  ⟨{ notationStr := "", startSquare := (0, 0), endSquare := (0, 0),
     moves := [], capturedSquares := [], finalBoardState := fun _ => none,
     isForced := false }⟩

namespace MoveGenerator

/-- `MoveGenerator.createCompleteTurn`. -/
def createCompleteTurn (finalBoardState : BoardState) (ts : TurnState)
    (isForced : Bool) : CompleteTurn :=
  let n := Logic.getTurnNotationStr ts
  let startSquare := ts.moves.headI
  let endSquare := ts.moves.getLastD (0, 0)
  { notationStr :=
      if n = "" then
        Logic.squareName startSquare ++ "-" ++ Logic.squareName endSquare
      else n,
    startSquare, endSquare,
    moves := ts.moves,
    capturedSquares := ts.capturedSquares,
    finalBoardState, isForced }

/-- `MoveGenerator.exploreTurnRecursive`, with the source's increasing
`depth` counter and its `depth > 15` cap re-expressed as the structurally
decreasing `fuel := 16 - depth` (the initial call's `depth = 0` becomes
`fuel = 16`; the cap branch is `fuel = 0`).  Executes the step to `toSq`,
filters continuations that would revisit a visited square other than the
start, and emits completed turns exactly where the source pushes them. -/
def exploreTurnRecursive (c : Color) (isForced : Bool) :
    Nat → Square → BoardState → TurnState → List CompleteTurn
  | 0, _, b, ts =>
    -- Safety cap reached: emit the turn as-is if we have made progress
    if ts.moves.length > 0 then [createCompleteTurn b ts isForced] else []
  | fuel + 1, toSq, b, ts =>
    match Logic.executeStep toSq b ts c with
    | .error _ => []
    | .ok r =>
      let startSquare := r.newTurnState.moves.headI
      let filteredNextMoves := r.legalNextMoves.filter (fun m =>
        decide (m.toSquare = startSquare ∨
          ¬ m.toSquare ∈ r.newTurnState.moves))
      if r.newTurnState.mustContinue ∧ filteredNextMoves ≠ [] then
        filteredNextMoves.flatMap (fun m =>
          exploreTurnRecursive c isForced fuel m.toSquare r.newBoardState
            r.newTurnState)
      else if filteredNextMoves ≠ [] then
        -- "stop here" turn, then jump continuations only
        createCompleteTurn r.newBoardState r.newTurnState isForced ::
          (filteredNextMoves.filter (fun m => m.type = StepType.jump)).flatMap
            (fun m =>
              exploreTurnRecursive c isForced fuel m.toSquare r.newBoardState
                r.newTurnState)
      else
        [createCompleteTurn r.newBoardState r.newTurnState isForced]

/-- Deduplication by notation string (the `Set<string>` pass at the end of
`generateAllLegalTurns`), keeping the first occurrence. -/
def dedupByNotationStr : List String → List CompleteTurn → List CompleteTurn
  | _, [] => []
  | seen, t :: rest =>
    if t.notationStr ∈ seen then dedupByNotationStr seen rest
    else t :: dedupByNotationStr (t.notationStr :: seen) rest

/-- `MoveGenerator.generateAllLegalTurns`: every distinct complete legal
turn for `c` from the position.  (The snapshot's moveGenerator passes each
initial move to `exploreTurnRecursive` as the first destination square.) -/
def generateAllLegalTurns (gs : GameState) (c : Color) : List CompleteTurn :=
  let boardState := gs.board_state
  let hasForceJump :=
    (Logic.checkFirstMovePossibleJumps boardState c).length > 0
  let turns := Board.ALL_SQUARES.flatMap (fun square =>
    match boardState square with
    | none => []
    | some piece =>
      if piece.color = c then
        (Logic.getInitialMoves square boardState c).flatMap (fun m =>
          exploreTurnRecursive c hasForceJump 16 m boardState
            (Logic.createEmptyTurnState square))
      else [])
  dedupByNotationStr [] turns

/-- `MoveGenerator.hasLegalMoves`. -/
def hasLegalMoves (gs : GameState) (c : Color) : Bool :=
  Board.ALL_SQUARES.any (fun square =>
    match gs.board_state square with
    | none => false
    | some piece =>
      piece.color = c ∧
        (Logic.getInitialMoves square gs.board_state c).length > 0)

/-- The comparator of `MoveGenerator.orderMoves`: captures first (weight
1000), then opponent-castle entries, then forward progress. -/
def moveCompare (oppCastle : List Square) (c : Color)
    (a b : CompleteTurn) : Int :=
  let aCaps : Int := a.capturedSquares.length
  let bCaps : Int := b.capturedSquares.length
  if aCaps ≠ bCaps then (bCaps - aCaps) * 1000
  else
    let aInCastle : Int := if a.endSquare ∈ oppCastle then 100 else 0
    let bInCastle : Int := if b.endSquare ∈ oppCastle then 100 else 0
    if aInCastle ≠ bInCastle then bInCastle - aInCastle
    else
      let aProgress :=
        if c = .white then a.endSquare.2 - a.startSquare.2
        else a.startSquare.2 - a.endSquare.2
      let bProgress :=
        if c = .white then b.endSquare.2 - b.startSquare.2
        else b.startSquare.2 - b.endSquare.2
      bProgress - aProgress

/-- `MoveGenerator.orderMoves`: stable sort by the comparator (JS
`Array.prototype.sort` is stable; embedded as a stable merge sort). -/
def orderMoves (turns : List CompleteTurn) (c : Color) : List CompleteTurn :=
  let oppCastle :=
    if c = .white then Board.BLACK_CASTLE else Board.WHITE_CASTLE
  turns.mergeSort (fun a b => moveCompare oppCastle c a b ≤ 0)

end MoveGenerator

/-- A score as JS produces it in search.ts: a rational, or the ±Infinity
sentinels used for the initial alpha/beta window and `bestScore`. -/
inductive JSNum where
  | ninf
  | num (q : ℚ)
  | inf
deriving DecidableEq, Repr

namespace JSNum

/-- Strict order with -Infinity below and Infinity above every number. -/
def blt : JSNum → JSNum → Bool
  | ninf, ninf => false
  | ninf, _ => true
  | num _, ninf => false
  | num a, num b => a < b
  | num _, inf => true
  | inf, _ => false

/-- Non-strict order. -/
def ble (a b : JSNum) : Bool := ¬ blt b a

/-- JS unary minus. -/
def neg : JSNum → JSNum
  | ninf => inf
  | num q => num (-q)
  | inf => ninf

/-- `Math.max`. -/
def jmax (a b : JSNum) : JSNum := if blt a b then b else a

/-- `Math.min`. -/
def jmin (a b : JSNum) : JSNum := if blt b a then b else a

/-- `Math.abs(x) > q` for a rational bound `q` (infinities exceed any
rational bound; the absolute value is spelled with a conditional so that
it evaluates by kernel reduction). -/
def absGt (x : JSNum) (q : ℚ) : Bool :=
  match x with
  | ninf => true
  | inf => true
  | num a => (if a < 0 then -a else a) > q

end JSNum

/-- `TTEntry` from transposition.ts (field `bestMoveNotation` renamed
`bestMoveStr`).  Zobrist keys are 64-bit BigInts stringified for the JS
Map; the embedding keys by the natural number directly (decimal
stringification is injective). -/
structure TTEntry where
  zobristKey : Nat
  depth : Nat
  score : JSNum
  flag : String
  bestMoveStr : Option String
deriving DecidableEq, Repr

/-- The random Zobrist key material generated once per table by
`initializeZobristKeys`: one key per (square, type, color), a turn key,
and one key per castle-move count 0..2 and color (three entries pushed
per color).  The `Math.random()`-derived values are abstracted as an
arbitrary key family; `initializeZobristKeys` always produces castle key
lists of length 3. -/
structure ZobristKeys where
  pieceKeys : Square → PieceType → Color → Nat
  turnKey : Nat
  whiteCastleKeys : List Nat
  blackCastleKeys : List Nat

namespace TranspositionTable

/-- `TranspositionTable.computeHash`: XOR of the keys of all present
pieces, the turn key iff black to move, and the castle-count keys for
counts in 1..length (counts of 0 or above the key-vector length are not
hashed). -/
def computeHash (zk : ZobristKeys) (gs : GameState) (c : Color) : Nat :=
  let pieceHash := Board.ALL_SQUARES.foldl (fun h square =>
    match gs.board_state square with
    | some p => h ^^^ zk.pieceKeys square p.type p.color
    | none => h) 0
  let turnHash :=
    if c = .black then pieceHash ^^^ zk.turnKey else pieceHash
  let whiteHash :=
    if gs.white_castle_moves > 0 ∧
        gs.white_castle_moves ≤ zk.whiteCastleKeys.length then
      turnHash ^^^ zk.whiteCastleKeys.getD (gs.white_castle_moves - 1) 0
    else turnHash
  if gs.black_castle_moves > 0 ∧
      gs.black_castle_moves ≤ zk.blackCastleKeys.length then
    whiteHash ^^^ zk.blackCastleKeys.getD (gs.black_castle_moves - 1) 0
  else whiteHash

/-- The JS `Map` holding the table: insertion-ordered key/entry pairs.
`Map.set` on an existing key updates in place, keeping its position;
on a fresh key it appends. -/
def mapSet : List (Nat × TTEntry) → Nat → TTEntry → List (Nat × TTEntry)
  | [], k, e => [(k, e)]
  | (k', e') :: rest, k, e =>
    if k' = k then (k, e) :: rest else (k', e') :: mapSet rest k e

/-- `TranspositionTable.store`: depth-preferring replacement, then FIFO
eviction of the first-inserted entry when the size bound is exceeded. -/
def store (table : List (Nat × TTEntry)) (maxSize : Nat) (zobristKey : Nat)
    (depth : Nat) (score : JSNum) (flag : String)
    (bestMoveStr : Option String) : List (Nat × TTEntry) :=
  match table.lookup zobristKey with
  | some existing =>
    if existing.depth > depth then table
    else
      let t := mapSet table zobristKey
        { zobristKey, depth, score, flag, bestMoveStr }
      if t.length > maxSize then t.tail else t
  | none =>
    let t := mapSet table zobristKey
      { zobristKey, depth, score, flag, bestMoveStr }
    if t.length > maxSize then t.tail else t

/-- `TranspositionTable.probe`. -/
def probe (table : List (Nat × TTEntry)) (zobristKey : Nat) :
    Option TTEntry :=
  table.lookup zobristKey

end TranspositionTable

namespace Evaluator

def MAN_VALUE : ℚ := 100
def KNIGHT_VALUE : ℚ := 150
def CASTLE_CONTROL_BONUS : ℚ := 80
def CASTLE_PROXIMITY_BONUS : ℚ := 40
def CENTER_CONTROL_BONUS : ℚ := 3
def MOBILITY_BONUS : ℚ := 3
def FORWARD_PROGRESS_BONUS : ℚ := 12
def CHECKMATE_SCORE : ℚ := 100000

/-- `Evaluator.evaluateMaterial`. -/
def evaluateMaterial (b : BoardState) : ℚ :=
  Board.ALL_SQUARES.foldl (fun s square =>
    match b square with
    | none => s
    | some p =>
      let value := if p.type = .knight then KNIGHT_VALUE else MAN_VALUE
      if p.color = .white then s + value else s - value) 0

/-- `Evaluator.getCenterControlBonus`: full bonus on files E..H, half on
D and I (file distance 1 from the center block). -/
def getCenterControlBonus (square : Square) : ℚ :=
  let file := square.1
  let fileDistance :=
    min (min (file - 4).natAbs (file - 5).natAbs)
      (min (file - 6).natAbs (file - 7).natAbs)
  if fileDistance = 0 then CENTER_CONTROL_BONUS
  else if fileDistance = 1 then CENTER_CONTROL_BONUS / 2
  else 0

/-- `Evaluator.getForwardProgressBonus`. -/
def getForwardProgressBonus (square : Square) (c : Color) : ℚ :=
  let rank := square.2
  if c = .white then (rank - 6 : ℤ) * FORWARD_PROGRESS_BONUS
  else (11 - rank : ℤ) * FORWARD_PROGRESS_BONUS

/-- `Evaluator.getCastleProximityBonus`: staged bonus by the Manhattan
distance to the nearest square of the enemy castle.  The source computes
`CASTLE_PROXIMITY_BONUS * 0.66` and `* 0.33` and `* 0.15` for the outer
tiers; in exact arithmetic these are 26.4, 13.2 and 6 (the double
rounding of `40 * 0.15` also yields exactly 6). -/
def getCastleProximityBonus (square : Square) (c : Color) : ℚ :=
  let enemyCastle :=
    if c = .white then Board.BLACK_CASTLE else Board.WHITE_CASTLE
  -- `minDistance` starts at Infinity and is min-folded over the castle
  -- squares; `List.min?` renders this exactly (none = Infinity, for which
  -- every `<=` tier below is false, as in the source)
  match (enemyCastle.map (fun cs =>
      (square.1 - cs.1).natAbs + (square.2 - cs.2).natAbs)).min? with
  | none => 0
  | some minDistance =>
    if minDistance ≤ 2 then CASTLE_PROXIMITY_BONUS
    else if minDistance ≤ 4 then CASTLE_PROXIMITY_BONUS * (66 / 100)
    else if minDistance ≤ 6 then CASTLE_PROXIMITY_BONUS * (33 / 100)
    else if minDistance ≤ 8 then CASTLE_PROXIMITY_BONUS * (15 / 100)
    else 0

/-- `Evaluator.evaluatePosition`: center control, forward progress and
castle proximity, signed by color. -/
def evaluatePosition (b : BoardState) : ℚ :=
  Board.ALL_SQUARES.foldl (fun s square =>
    match b square with
    | none => s
    | some p =>
      let multiplier : ℚ := if p.color = .white then 1 else -1
      s + getCenterControlBonus square * multiplier
        + getForwardProgressBonus square p.color * multiplier
        + getCastleProximityBonus square p.color * multiplier) 0

/-- `Evaluator.evaluateCastleControl`. -/
def evaluateCastleControl (b : BoardState) : ℚ :=
  let w := Board.BLACK_CASTLE.foldl (fun s square =>
    match b square with
    | some p => if p.color = .white then s + CASTLE_CONTROL_BONUS else s
    | none => s) (0 : ℚ)
  Board.WHITE_CASTLE.foldl (fun s square =>
    match b square with
    | some p => if p.color = .black then s - CASTLE_CONTROL_BONUS else s
    | none => s) w

/-- `Evaluator.evaluateMobility`: legal initial moves times the bonus. -/
def evaluateMobility (gs : GameState) (c : Color) : ℚ :=
  let moveCount := (Board.ALL_SQUARES.map (fun square =>
    match gs.board_state square with
    | some p =>
      if p.color = c then
        (Logic.getInitialMoves square gs.board_state c).length
      else 0
    | none => 0)).sum
  (moveCount : ℚ) * MOBILITY_BONUS

/-- `Evaluator.evaluate`: terminal recognition, then material plus
positional terms plus mobility plus jitter.  The `Math.random()` draw for
the jitter is passed in as `rand ∈ [0,1)` (drawn only on the non-terminal
path, exactly where the source calls `Math.random()`); the second
component reports whether the draw was consumed. -/
def evaluate (gs : GameState) (currentPlayer : Color) (rand : ℚ) :
    ℚ × Bool :=
  let b := gs.board_state
  if (Logic.checkWinCondition b .white).isSome then
    (if currentPlayer = .white then CHECKMATE_SCORE else -CHECKMATE_SCORE,
     false)
  else if (Logic.checkWinCondition b .black).isSome then
    (if currentPlayer = .black then CHECKMATE_SCORE else -CHECKMATE_SCORE,
     false)
  else
    (evaluateMaterial b + evaluatePosition b + evaluateCastleControl b
      + evaluateMobility gs .white * (1 / 2)
      - evaluateMobility gs .black * (1 / 2)
      + (rand * 20 - 10),
     true)

end Evaluator

/-- `SearchStats` from search.ts. -/
structure SearchStats where
  nodes : Nat
  qnodes : Nat
  ttHits : Nat
  ttStores : Nat
  cutoffs : Nat
  depth : Nat
  timeMs : Nat
  nps : Nat
deriving DecidableEq, Repr

/-- `SearchResult` from search.ts. -/
structure SearchResult where
  bestMove : Option CompleteTurn
  score : JSNum
  depth : Nat
  pvLine : List String
  stats : SearchStats

namespace Search

/-- The ambient effects of a `Search` instance: its Zobrist key material
and table bound, the `Date.now()` clock (elapsed milliseconds since the
search start, indexed by poll number) and the `Math.random()` stream
(indexed by draw number). -/
structure SearchCtx where
  zk : ZobristKeys
  maxSize : Nat
  clock : Nat → Nat
  rng : Nat → ℚ

/-- The mutable state of a `Search` instance: the transposition table,
the statistics, the sticky abort flag, and the clock/rng cursors. -/
structure SState where
  table : List (Nat × TTEntry)
  stats : SearchStats
  aborted : Bool
  tick : Nat
  rtick : Nat

/-- `Search.createEmptyStats`. -/
def emptyStats : SearchStats :=
  { nodes := 0, qnodes := 0, ttHits := 0, ttStores := 0, cutoffs := 0,
    depth := 0, timeMs := 0, nps := 0 }

/-- `Search.shouldAbort`: sticky flag, else poll the clock against the
time limit. -/
def shouldAbort (ctx : SearchCtx) (timeLimit : Nat) (st : SState) :
    Bool × SState :=
  if st.aborted then (true, st)
  else
    let elapsed := ctx.clock st.tick
    let st := { st with tick := st.tick + 1 }
    if elapsed ≥ timeLimit then (true, { st with aborted := true })
    else (false, st)

/-- `Search.finalizeStats`: fill in depth, elapsed time (one more
`Date.now()` read) and nodes per second. -/
def finalizeStats (ctx : SearchCtx) (st : SState) (depth : Nat) :
    SearchStats × SState :=
  let timeMs := ctx.clock st.tick
  let st := { st with tick := st.tick + 1 }
  let nps := if timeMs > 0 then st.stats.nodes * 1000 / timeMs else 0
  ({ st.stats with depth, timeMs, nps }, st)

/-- Number of occupied addressable squares; each quiescence recursion
applies a capture turn, so this strictly bounds the quiescence chain and
serves as its fuel. -/
def pieceCount (b : BoardState) : Nat :=
  (Board.ALL_SQUARES.filter (fun sq => (b sq).isSome)).length

/-- Accumulator of the quiescence capture loop. -/
structure QAcc where
  alpha : JSNum
  done : Bool
  st : SState

/-- `Search.quiescence`: stand-pat bound, then capture turns only,
ordered by capture count, with beta cutoff.  The `fuel` parameter
realizes the termination argument absent from the source (captures
strictly shrink the board); it is chosen at the call site so that the
zero-fuel branch is unreachable. -/
def quiescence (ctx : SearchCtx) (timeLimit : Nat) :
    Nat → GameState → Color → JSNum → JSNum → SState → JSNum × SState
  | 0, _, _, alpha, _, st => (alpha, st)
  | fuel + 1, gs, c, alpha, beta, st =>
    let (ab, st) := shouldAbort ctx timeLimit st
    if ab then (.num 0, st)
    else
      let st := { st with stats :=
        { st.stats with qnodes := st.stats.qnodes + 1 } }
      let (standPat, drew) := Evaluator.evaluate gs c (ctx.rng st.rtick)
      let st := if drew then { st with rtick := st.rtick + 1 } else st
      let score : ℚ := if c = .white then standPat else -standPat
      if JSNum.ble beta (.num score) then (.num score, st)
      else
        let alpha := JSNum.jmax alpha (.num score)
        let allMoves := MoveGenerator.generateAllLegalTurns gs c
        let captureMoves :=
          allMoves.filter (fun m => m.capturedSquares.length > 0)
        if captureMoves.isEmpty then (.num score, st)
        else
          let orderedCaptures := captureMoves.mergeSort (fun a b =>
            b.capturedSquares.length ≤ a.capturedSquares.length)
          let acc := orderedCaptures.foldl (fun (acc : QAcc) move =>
            if acc.done then acc
            else
              let (ab, st) := shouldAbort ctx timeLimit acc.st
              if ab then { acc with st, done := true }
              else
                let newGs : GameState :=
                  { gs with board_state := move.finalBoardState }
                let (s, st) := quiescence ctx timeLimit fuel newGs c.opp
                  (JSNum.neg beta) (JSNum.neg acc.alpha) st
                let moveScore := JSNum.neg s
                let alpha := JSNum.jmax acc.alpha moveScore
                if JSNum.ble beta alpha then
                  { alpha, done := true,
                    st := { st with stats := { st.stats with
                      cutoffs := st.stats.cutoffs + 1 } } }
                else { alpha, done := false, st })
            { alpha, done := false, st }
          (acc.alpha, acc.st)

/-- Accumulator of the alpha-beta move loop. -/
structure ABAcc where
  bestScore : JSNum
  bestMoveStr : Option String
  alpha : JSNum
  flag : String
  done : Bool
  st : SState

/-- `Search.alphaBeta` (negamax): abort poll, transposition probe,
quiescence or static evaluation at depth 0, else the ordered move loop
with beta cutoff, finishing with a transposition store. -/
def alphaBeta (ctx : SearchCtx) (timeLimit : Nat) :
    Nat → GameState → Color → JSNum → JSNum → Bool → SState →
      JSNum × SState
  | depth, gs, c, alpha, beta, isQ, st =>
    let (ab, st) := shouldAbort ctx timeLimit st
    if ab then (.num 0, st)
    else
      let st := { st with stats := { st.stats with
        nodes := st.stats.nodes + 1,
        qnodes := st.stats.qnodes + (if isQ then 1 else 0) } }
      let zobristKey := TranspositionTable.computeHash ctx.zk gs c
      let ttEntry := TranspositionTable.probe st.table zobristKey
      let ttStep : (JSNum × SState) ⊕ (JSNum × JSNum × SState) :=
        match ttEntry with
        | some e =>
          if e.depth ≥ depth then
            let st := { st with stats := { st.stats with
              ttHits := st.stats.ttHits + 1 } }
            if e.flag = "exact" then .inl (e.score, st)
            else
              let alpha :=
                if e.flag = "lowerbound" then JSNum.jmax alpha e.score
                else alpha
              let beta :=
                if e.flag = "upperbound" then JSNum.jmin beta e.score
                else beta
              if JSNum.ble beta alpha then
                .inl (e.score, { st with stats := { st.stats with
                  cutoffs := st.stats.cutoffs + 1 } })
              else .inr (alpha, beta, st)
          else .inr (alpha, beta, st)
        | none => .inr (alpha, beta, st)
      match ttStep with
      | .inl r => r
      | .inr (alpha, beta, st) =>
        match depth with
        | 0 =>
          if ¬ isQ then
            quiescence ctx timeLimit (pieceCount gs.board_state + 1) gs c
              alpha beta st
          else
            let (q, drew) := Evaluator.evaluate gs c (ctx.rng st.rtick)
            let st := if drew then { st with rtick := st.rtick + 1 } else st
            (.num (if c = .white then q else -q), st)
        | d + 1 =>
          let allMoves := MoveGenerator.generateAllLegalTurns gs c
          if allMoves.isEmpty then
            (.num (-Evaluator.CHECKMATE_SCORE + ((d : ℚ) + 1)), st)
          else
            let orderedMoves := MoveGenerator.orderMoves allMoves c
            let acc := orderedMoves.foldl (fun (acc : ABAcc) move =>
              if acc.done then acc
              else
                let (ab, st) := shouldAbort ctx timeLimit acc.st
                if ab then { acc with st, done := true }
                else
                  let newGs : GameState :=
                    { gs with board_state := move.finalBoardState }
                  let (s, st) := alphaBeta ctx timeLimit d newGs c.opp
                    (JSNum.neg beta) (JSNum.neg acc.alpha) false st
                  let score := JSNum.neg s
                  let best :=
                    if JSNum.blt acc.bestScore score then
                      (score, some move.notationStr)
                    else (acc.bestScore, acc.bestMoveStr)
                  let alpha := JSNum.jmax acc.alpha score
                  if JSNum.ble beta alpha then
                    { bestScore := best.1, bestMoveStr := best.2, alpha,
                      flag := "lowerbound", done := true,
                      st := { st with stats := { st.stats with
                        cutoffs := st.stats.cutoffs + 1 } } }
                  else
                    { bestScore := best.1, bestMoveStr := best.2, alpha,
                      flag := "exact", done := false, st })
              { bestScore := .ninf, bestMoveStr := none, alpha,
                flag := "upperbound", done := false, st }
            let st := acc.st
            let st := { st with
              table := TranspositionTable.store st.table ctx.maxSize
                zobristKey (d + 1) acc.bestScore acc.flag acc.bestMoveStr,
              stats := { st.stats with
                ttStores := st.stats.ttStores + 1 } }
            (acc.bestScore, st)

/-- Accumulator of the root move loop. -/
structure RootAcc where
  alpha : JSNum
  bestScore : JSNum
  bestMove : CompleteTurn
  topMoves : List (CompleteTurn × JSNum)
  done : Bool
  st : SState

/-- `Search.searchRoot`: one fixed-depth search from the root, retaining
the best turn object, with the 20%-probability randomized pick among the
top three scoring turns, and a final exact transposition store. -/
def searchRoot (ctx : SearchCtx) (timeLimit : Nat) (gs : GameState)
    (c : Color) (depth : Nat) (st : SState) : SearchResult × SState :=
  let allMoves := MoveGenerator.generateAllLegalTurns gs c
  if allMoves.isEmpty then
    ({ bestMove := none, score := .num (-Evaluator.CHECKMATE_SCORE),
       depth, pvLine := [], stats := st.stats }, st)
  else
    let orderedMoves := MoveGenerator.orderMoves allMoves c
    let beta := JSNum.inf
    let acc := orderedMoves.foldl (fun (acc : RootAcc) move =>
      if acc.done then acc
      else
        let (ab, st) := shouldAbort ctx timeLimit acc.st
        if ab then { acc with st, done := true }
        else
          let newGs : GameState :=
            { gs with board_state := move.finalBoardState }
          let (s, st) := alphaBeta ctx timeLimit (depth - 1) newGs c.opp
            (JSNum.neg beta) (JSNum.neg acc.alpha) false st
          let score := JSNum.neg s
          let topMoves := acc.topMoves ++ [(move, score)]
          if JSNum.blt acc.bestScore score then
            { alpha := JSNum.jmax acc.alpha score, bestScore := score,
              bestMove := move, topMoves, done := false, st }
          else { acc with topMoves, st })
      { alpha := JSNum.ninf, bestScore := JSNum.ninf,
        bestMove := orderedMoves.headI, topMoves := [], done := false, st }
    let st := acc.st
    -- 20% chance to pick among the top three (the first draw always
    -- happens; the index draw only inside the branch)
    let r1 := ctx.rng st.rtick
    let st := { st with rtick := st.rtick + 1 }
    let (bestMove, bestScore, st) :=
      if r1 < 1 / 5 ∧ acc.topMoves.length > 1 then
        let sorted := acc.topMoves.mergeSort (fun a b => JSNum.ble b.2 a.2)
        let topThree := sorted.take (min 3 sorted.length)
        let r2 := ctx.rng st.rtick
        let st := { st with rtick := st.rtick + 1 }
        let idx := (⌊r2 * (topThree.length : ℚ)⌋).toNat
        let pick := topThree.getD idx (acc.bestMove, acc.bestScore)
        (pick.1, pick.2, st)
      else (acc.bestMove, acc.bestScore, st)
    let zobristKey := TranspositionTable.computeHash ctx.zk gs c
    let st := { st with
      table := TranspositionTable.store st.table ctx.maxSize zobristKey
        depth bestScore "exact" (some bestMove.notationStr),
      stats := { st.stats with ttStores := st.stats.ttStores + 1 } }
    ({ bestMove := some bestMove, score := bestScore, depth,
       pvLine := [bestMove.notationStr], stats := st.stats }, st)

/-- The iterative-deepening loop of `searchIterativeDeepening`: depths
`d, d+1, ...` while `left` iterations remain, keeping the last completed
result and stopping early on abort or on a forced-mate score. -/
def sidLoop (ctx : SearchCtx) (timeLimit : Nat) (gs : GameState)
    (c : Color) :
    Nat → Nat → Option SearchResult → SState →
      Option SearchResult × SState
  | 0, _, best, st => (best, st)
  | left + 1, d, best, st =>
    let (ab, st) := shouldAbort ctx timeLimit st
    if ab then (best, st)
    else
      let (res, st) := searchRoot ctx timeLimit gs c d st
      let (best, st) :=
        if ¬ st.aborted then
          let (stats, st) := finalizeStats ctx st d
          (some { res with stats }, st)
        else (best, st)
      match best with
      | some b =>
        if JSNum.absGt b.score (Evaluator.CHECKMATE_SCORE / 2) then
          (best, st)
        else sidLoop ctx timeLimit gs c left (d + 1) best st
      | none => sidLoop ctx timeLimit gs c left (d + 1) best st
  termination_by structural left _ _ _ => left

/-- `Search.searchIterativeDeepening`: reset the per-search state (the
transposition table survives), run depths 1..maxDepth, and on no
completed result fall back to the first generated legal turn with score
0 and depth 0. -/
def searchIterativeDeepening (ctx : SearchCtx) (gs : GameState)
    (c : Color) (maxDepth timeLimit : Nat) (st₀ : SState) :
    SearchResult × SState :=
  let st : SState :=
    { table := st₀.table, stats := emptyStats, aborted := false,
      tick := 0, rtick := st₀.rtick }
  let (best, st) := sidLoop ctx timeLimit gs c maxDepth 1 none st
  match best with
  | some b => (b, st)
  | none =>
    let allMoves := MoveGenerator.generateAllLegalTurns gs c
    let (stats, st) := finalizeStats ctx st 0
    ({ bestMove := allMoves.head?, score := .num 0, depth := 0,
       pvLine := [], stats }, st)

end Search

/-- Whether an optional board entry holds a piece of color `c`
(`boardState[square]?.color === playerColor` in the source). -/
def colorMatches (c : Color) (v : Option Piece) : Bool :=
  match v with
  | some p => p.color = c
  | none => false

/-- Number of pieces of color `c` on the addressable squares, the count
`Board.ALL_SQUARES.filter(square => boardState[square]?.color ===
playerColor).length` used throughout the source. -/
def countColor (b : BoardState) (c : Color) : Nat :=
  (Board.ALL_SQUARES.filter (fun sq => colorMatches c (b sq))).length

/-- The opponent's castle squares for the side to move
(`isSquareInCastle(square, opponentColor)` in the source). -/
def oppCastleOf (c : Color) : List Square :=
  if c = Color.white then Board.BLACK_CASTLE else Board.WHITE_CASTLE

/-- One or more validated engine steps: from the pending destination
`toSq` applied to `(b, ts)`, to the final position `(b', ts')`.  Each
continued step goes to one of the offered legal next moves whose
destination is the start square or a square not yet visited — the
filter `exploreTurnRecursive` applies before recursing. -/
inductive StepsPlus (c : Color) :
    Square → BoardState → TurnState → BoardState → TurnState → Prop where
  | done {toSq : Square} {b : BoardState} {ts : TurnState} {r : StepOk}
      (h : Logic.executeStep toSq b ts c = .ok r) :
      StepsPlus c toSq b ts r.newBoardState r.newTurnState
  | cons {toSq : Square} {b : BoardState} {ts : TurnState} {r : StepOk}
      {m : LegalMove} {b' : BoardState} {ts' : TurnState}
      (h : Logic.executeStep toSq b ts c = .ok r)
      (hm : m ∈ r.legalNextMoves)
      (hrv : m.toSquare = r.newTurnState.moves.headI ∨
        ¬ m.toSquare ∈ r.newTurnState.moves)
      (hrest : StepsPlus c m.toSquare r.newBoardState r.newTurnState b' ts') :
      StepsPlus c toSq b ts b' ts'

/-! Concrete positions used to instantiate the theorems below. -/

/-- Forced-jump position (boundary scenario 2 of the spec): White knight
E6, Black man F7, spare White knight A4, spare Black man L13. -/
def exForcedJumpBoard : BoardState := fun sq =>
  if sq = ((4 : Int), (6 : Int)) then some ⟨.knight, .white⟩
  else if sq = ((5 : Int), (7 : Int)) then some ⟨.man, .black⟩
  else if sq = ((0 : Int), (4 : Int)) then some ⟨.knight, .white⟩
  else if sq = ((11 : Int), (13 : Int)) then some ⟨.man, .black⟩
  else none

def exForcedJumpGs : GameState := ⟨0, 0, exForcedJumpBoard⟩

/-- A position where a jump chain returns to its origin: White man E6
surrounded by Black men on F7, F9, D9 and D7 (a diamond of enemies). -/
def exJumpCycleBoard : BoardState := fun sq =>
  if sq = ((4 : Int), (6 : Int)) then some ⟨.man, .white⟩
  else if sq = ((5 : Int), (7 : Int)) then some ⟨.man, .black⟩
  else if sq = ((5 : Int), (9 : Int)) then some ⟨.man, .black⟩
  else if sq = ((3 : Int), (9 : Int)) then some ⟨.man, .black⟩
  else if sq = ((3 : Int), (7 : Int)) then some ⟨.man, .black⟩
  else none

def exJumpCycleGs : GameState := ⟨0, 0, exJumpCycleBoard⟩

/-- A position with a White man standing on F16, a square of Black's
castle, plus spares far away. -/
def exCastleStartBoard : BoardState := fun sq =>
  if sq = ((5 : Int), (16 : Int)) then some ⟨.man, .white⟩
  else if sq = ((0 : Int), (4 : Int)) then some ⟨.man, .white⟩
  else if sq = ((11 : Int), (13 : Int)) then some ⟨.man, .black⟩
  else none

def exCastleStartGs : GameState := ⟨0, 0, exCastleStartBoard⟩

/-- A position with no Black pieces at all, so Black has no legal turn. -/
def exNoBlackBoard : BoardState := fun sq =>
  if sq = ((0 : Int), (4 : Int)) then some ⟨.man, .white⟩
  else if sq = ((5 : Int), (6 : Int)) then some ⟨.man, .white⟩
  else none

def exNoBlackGs : GameState := ⟨0, 0, exNoBlackBoard⟩

/-- A concrete Zobrist key family with castle key vectors of length 3,
as `initializeZobristKeys` always produces. -/
def exZobrist : ZobristKeys := ⟨fun _ _ _ => 0, 1, [1, 2, 3], [4, 5, 6]⟩

/-- A search context whose clock never advances (ample time for any
positive limit; immediate deadline for limit 0) and whose random stream
is constantly 0. -/
def exCtx : Search.SearchCtx := ⟨exZobrist, 1000, fun _ => 0, fun _ => 0⟩

/-- A fresh search state with an empty transposition table. -/
def exSState : Search.SState := ⟨[], Search.emptyStats, false, 0, 0⟩

/-!
Theorems:

Basic facts about the coordinate primitives, then the claims C1..C10.
-/

theorem getAdjacentSquare_spec {a d n : Square}
    (h : Coordinates.getAdjacentSquare a d = some n) :
    n = (a.1 + d.1, a.2 + d.2) ∧ n ∈ Board.ALL_SQUARES := by
  unfold Coordinates.getAdjacentSquare at h
  dsimp only at h
  split at h
  · rename_i hv
    cases h
    exact ⟨rfl, of_decide_eq_true hv⟩
  · cases h

/-- C8 (amended): the evaluator's castle-proximity component is the
staged bonus +40 / +26.4 / +13.2 / +6 / 0 of the Manhattan distance to
the nearest enemy-castle square (the spec's +26 and +13 tiers are in
fact `40 * 0.66 = 26.4` and `40 * 0.33 = 13.2`). -/
theorem castleProximityBonus_tiers (sq : Square) (c : Color) :
    Evaluator.getCastleProximityBonus sq c =
      (let dist :=
        match c with
        | .white => min ((sq.1 - 5).natAbs + (sq.2 - 16).natAbs)
            ((sq.1 - 6).natAbs + (sq.2 - 16).natAbs)
        | .black => min ((sq.1 - 5).natAbs + (sq.2 - 1).natAbs)
            ((sq.1 - 6).natAbs + (sq.2 - 1).natAbs)
      if dist ≤ 2 then 40
      else if dist ≤ 4 then 26.4
      else if dist ≤ 6 then 13.2
      else if dist ≤ 8 then 6
      else 0) := by
  cases c <;>
    simp only [Evaluator.getCastleProximityBonus, Board.BLACK_CASTLE,
      Board.WHITE_CASTLE, Evaluator.CASTLE_PROXIMITY_BONUS, List.map,
      List.min?, List.foldl, if_true, if_false] <;>
    split_ifs <;> norm_num

/-- C8 counterexample: at Manhattan distance 3 (resp. 5) from the
nearest enemy-castle square the bonus is 26.4 (resp. 13.2), not the +26
(resp. +13) the claim states. -/
theorem castleProximityBonus_counterexample :
    Evaluator.getCastleProximityBonus ((5 : Int), (13 : Int)) .white ≠ 26 ∧
    Evaluator.getCastleProximityBonus ((5 : Int), (13 : Int)) .white
      = 26.4 ∧
    Evaluator.getCastleProximityBonus ((5 : Int), (11 : Int)) .white ≠ 13 ∧
    Evaluator.getCastleProximityBonus ((5 : Int), (11 : Int)) .white
      = 13.2 := by
  refine ⟨?_, ?_, ?_, ?_⟩ <;>
    norm_num [Evaluator.getCastleProximityBonus, Board.BLACK_CASTLE,
      Evaluator.CASTLE_PROXIMITY_BONUS, List.min?]

/-- C10: `computeHash` ignores a castle-move counter whose value exceeds
the length (3) of the castle key vector, so such a position hashes
identically to the same position with that counter equal to 0. -/
theorem computeHash_ignores_counters_above_three (zk : ZobristKeys)
    (hW : zk.whiteCastleKeys.length = 3)
    (hB : zk.blackCastleKeys.length = 3)
    (gs : GameState) (c : Color) (k : Nat) (hk : 3 < k) :
    TranspositionTable.computeHash zk
        { gs with white_castle_moves := k } c =
      TranspositionTable.computeHash zk
        { gs with white_castle_moves := 0 } c ∧
    TranspositionTable.computeHash zk
        { gs with black_castle_moves := k } c =
      TranspositionTable.computeHash zk
        { gs with black_castle_moves := 0 } c := by
  unfold TranspositionTable.computeHash
  rw [hW, hB]
  constructor <;> · dsimp only; split_ifs <;> first | rfl | omega

/-- C10 witness at a concrete key family, position, and counter 4. -/
theorem computeHash_ignores_counters_above_three_witness :
    TranspositionTable.computeHash exZobrist
        { exNoBlackGs with white_castle_moves := 4 } .white =
      TranspositionTable.computeHash exZobrist
        { exNoBlackGs with white_castle_moves := 0 } .white ∧
    TranspositionTable.computeHash exZobrist
        { exNoBlackGs with black_castle_moves := 4 } .white =
      TranspositionTable.computeHash exZobrist
        { exNoBlackGs with black_castle_moves := 0 } .white :=
  computeHash_ignores_counters_above_three exZobrist rfl rfl
    exNoBlackGs .white 4 (by norm_num)

theorem list_lookup_cons_self {β : Type _} (k : Nat) (e : β)
    (t : List (Nat × β)) : List.lookup k ((k, e) :: t) = some e := by
  simp [List.lookup]

theorem list_lookup_cons_ne {β : Type _} {k k₁ : Nat} (e : β)
    (t : List (Nat × β)) (h : ¬ k = k₁) :
    List.lookup k ((k₁, e) :: t) = List.lookup k t := by
  simp [List.lookup, beq_eq_false_iff_ne.mpr h]

theorem tt_lookup_mapSet_self (l : List (Nat × TTEntry)) (k : Nat)
    (e : TTEntry) :
    (TranspositionTable.mapSet l k e).lookup k = some e := by
  induction l with
  | nil => simp [TranspositionTable.mapSet, List.lookup]
  | cons he t ih =>
    obtain ⟨k₁, e₁⟩ := he
    by_cases hk : k₁ = k
    · simp only [TranspositionTable.mapSet, if_pos hk]
      exact list_lookup_cons_self k e t
    · simp only [TranspositionTable.mapSet, if_neg hk]
      rw [list_lookup_cons_ne e₁ _ (Ne.symm hk)]
      exact ih

theorem tt_lookup_eq_none {l : List (Nat × TTEntry)} {k : Nat}
    (h : ¬ k ∈ l.map Prod.fst) : l.lookup k = none := by
  induction l with
  | nil => rfl
  | cons he t ih =>
    obtain ⟨k₁, e₁⟩ := he
    simp only [List.map_cons, List.mem_cons, not_or] at h
    rw [list_lookup_cons_ne e₁ t h.1]
    exact ih h.2

theorem tt_mapSet_append {l : List (Nat × TTEntry)} {k : Nat}
    (e : TTEntry) (h : l.lookup k = none) :
    TranspositionTable.mapSet l k e = l ++ [(k, e)] := by
  induction l with
  | nil => rfl
  | cons he t ih =>
    obtain ⟨k₁, e₁⟩ := he
    by_cases hk : k = k₁
    · subst hk
      rw [list_lookup_cons_self k e₁ t] at h
      cases h
    · rw [list_lookup_cons_ne e₁ t hk] at h
      simp only [TranspositionTable.mapSet, if_neg (Ne.symm hk),
        List.cons_append]
      rw [ih h]

theorem tt_lookup_tail_mapSet (l : List (Nat × TTEntry)) (k : Nat)
    (e : TTEntry) (hnd : (l.map Prod.fst).Nodup) :
    ((TranspositionTable.mapSet l k e).tail).lookup k = some e ∨
    ((TranspositionTable.mapSet l k e).tail).lookup k = none := by
  cases l with
  | nil => exact Or.inr rfl
  | cons he t =>
    obtain ⟨k₁, e₁⟩ := he
    simp only [List.map_cons, List.nodup_cons] at hnd
    by_cases hk : k₁ = k
    · subst hk
      simp only [TranspositionTable.mapSet, if_pos rfl, List.tail_cons]
      exact Or.inr (tt_lookup_eq_none hnd.1)
    · simp only [TranspositionTable.mapSet, if_neg hk, List.tail_cons]
      exact Or.inl (tt_lookup_mapSet_self t k e)

/-- Cases for a successful probe after a store: either the old, strictly
deeper entry survived untouched, or the probe finds the newly stored
entry. -/
theorem tt_probe_store_cases (table : List (Nat × TTEntry))
    (maxSize k d : Nat) (s : JSNum) (f : String) (m : Option String)
    (hnd : (table.map Prod.fst).Nodup) (e₂ : TTEntry)
    (h : TranspositionTable.probe
        (TranspositionTable.store table maxSize k d s f m) k = some e₂) :
    (∃ e, table.lookup k = some e ∧ d < e.depth ∧ e₂ = e) ∨
    e₂ = ⟨k, d, s, f, m⟩ := by
  unfold TranspositionTable.store at h
  cases hl : table.lookup k with
  | some e =>
    rw [hl] at h
    dsimp only at h
    by_cases hd : e.depth > d
    · rw [if_pos hd] at h
      unfold TranspositionTable.probe at h
      rw [hl] at h
      injection h with he
      exact Or.inl ⟨e, rfl, hd, he.symm⟩
    · rw [if_neg hd] at h
      unfold TranspositionTable.probe at h
      split at h
      · rcases tt_lookup_tail_mapSet table k ⟨k, d, s, f, m⟩ hnd with
          hc | hc <;> rw [hc] at h
        · cases h
          exact Or.inr rfl
        · cases h
      · rw [tt_lookup_mapSet_self table k ⟨k, d, s, f, m⟩] at h
        cases h
        exact Or.inr rfl
  | none =>
    rw [hl] at h
    dsimp only at h
    unfold TranspositionTable.probe at h
    rw [tt_mapSet_append ⟨k, d, s, f, m⟩ hl] at h
    split at h
    · cases table with
      | nil => simp [List.lookup] at h
      | cons he t =>
        obtain ⟨k₁, e₁⟩ := he
        simp only [List.cons_append, List.tail_cons] at h
        have ht : t.lookup k = none := by
          by_cases hk : k = k₁
          · subst hk
            rw [list_lookup_cons_self k e₁ t] at hl
            cases hl
          · rw [list_lookup_cons_ne e₁ t hk] at hl
            exact hl
        rw [← tt_mapSet_append ⟨k, d, s, f, m⟩ ht] at h
        rw [tt_lookup_mapSet_self t k ⟨k, d, s, f, m⟩] at h
        cases h
        exact Or.inr rfl
    · rw [← tt_mapSet_append ⟨k, d, s, f, m⟩ hl] at h
      rw [tt_lookup_mapSet_self table k ⟨k, d, s, f, m⟩] at h
      cases h
      exact Or.inr rfl

/-- C7: `store` is depth-preferring.  A strictly deeper existing entry
for the key makes `store` a no-op; otherwise the new entry overwrites
(whenever it is still found, i.e. was not just evicted); and in every
case a successful probe after `store(k, d, ...)` yields an entry of
depth at least `d`. -/
theorem store_depth_preferring (table : List (Nat × TTEntry))
    (maxSize k d : Nat) (s : JSNum) (f : String) (m : Option String)
    (hnd : (table.map Prod.fst).Nodup) :
    (∀ e, table.lookup k = some e → d < e.depth →
      TranspositionTable.store table maxSize k d s f m = table) ∧
    (∀ e, table.lookup k = some e → e.depth ≤ d →
      ∀ e₂, TranspositionTable.probe
          (TranspositionTable.store table maxSize k d s f m) k = some e₂ →
        e₂ = ⟨k, d, s, f, m⟩) ∧
    (∀ e₂, TranspositionTable.probe
        (TranspositionTable.store table maxSize k d s f m) k = some e₂ →
      d ≤ e₂.depth) := by
  refine ⟨?_, ?_, ?_⟩
  · intro e hl hd
    unfold TranspositionTable.store
    rw [hl]
    dsimp only
    rw [if_pos hd]
  · intro e hl hd e₂ hp
    rcases tt_probe_store_cases table maxSize k d s f m hnd e₂ hp with
      ⟨e', hl', hd', he'⟩ | he₂
    · rw [hl] at hl'
      cases hl'
      omega
    · exact he₂
  · intro e₂ hp
    rcases tt_probe_store_cases table maxSize k d s f m hnd e₂ hp with
      ⟨e', _, hd', he'⟩ | he₂
    · rw [he']
      omega
    · rw [he₂]

/-- C7 witness: a concrete one-entry table with a depth-5 entry,
overwritten by a depth-7 store. -/
theorem store_depth_preferring_witness :
    (∀ e, [((1 : Nat), (⟨1, 5, .num 0, "exact", none⟩ : TTEntry))].lookup
        (1 : Nat) = some e → 7 < e.depth →
      TranspositionTable.store
        [(1, ⟨1, 5, .num 0, "exact", none⟩)] 10 1 7 (.num 3) "exact" none
        = [(1, ⟨1, 5, .num 0, "exact", none⟩)]) ∧
    (∀ e, [((1 : Nat), (⟨1, 5, .num 0, "exact", none⟩ : TTEntry))].lookup
        (1 : Nat) = some e → e.depth ≤ 7 →
      ∀ e₂, TranspositionTable.probe
          (TranspositionTable.store
            [(1, ⟨1, 5, .num 0, "exact", none⟩)] 10 1 7 (.num 3) "exact"
            none) 1 = some e₂ →
        e₂ = ⟨1, 7, .num 3, "exact", none⟩) ∧
    (∀ e₂, TranspositionTable.probe
        (TranspositionTable.store
          [(1, ⟨1, 5, .num 0, "exact", none⟩)] 10 1 7 (.num 3) "exact"
          none) 1 = some e₂ →
      7 ≤ e₂.depth) :=
  store_depth_preferring [(1, ⟨1, 5, .num 0, "exact", none⟩)] 10 1 7
    (.num 3) "exact" none (by decide)

/-- C9: if the deadline is already exceeded at the very first poll (for
example with a zero time limit), `searchIterativeDeepening` does not
return a null best move unconditionally: it falls back to the first
generated legal turn, with score 0, depth 0 and an empty principal
variation. -/
theorem sid_immediate_deadline_fallback (ctx : Search.SearchCtx)
    (gs : GameState) (c : Color) (maxDepth timeLimit : Nat)
    (st₀ : Search.SState) (htime : timeLimit ≤ ctx.clock 0) :
    (Search.searchIterativeDeepening ctx gs c maxDepth timeLimit
        st₀).1.bestMove = (MoveGenerator.generateAllLegalTurns gs c).head? ∧
    (Search.searchIterativeDeepening ctx gs c maxDepth timeLimit
        st₀).1.score = .num 0 ∧
    (Search.searchIterativeDeepening ctx gs c maxDepth timeLimit
        st₀).1.depth = 0 ∧
    (Search.searchIterativeDeepening ctx gs c maxDepth timeLimit
        st₀).1.pvLine = [] ∧
    (MoveGenerator.generateAllLegalTurns gs c ≠ [] →
      (Search.searchIterativeDeepening ctx gs c maxDepth timeLimit
        st₀).1.bestMove ≠ none) := by
  have hmain :
      (Search.searchIterativeDeepening ctx gs c maxDepth timeLimit
        st₀).1.bestMove = (MoveGenerator.generateAllLegalTurns gs c).head? ∧
      (Search.searchIterativeDeepening ctx gs c maxDepth timeLimit
        st₀).1.score = .num 0 ∧
      (Search.searchIterativeDeepening ctx gs c maxDepth timeLimit
        st₀).1.depth = 0 ∧
      (Search.searchIterativeDeepening ctx gs c maxDepth timeLimit
        st₀).1.pvLine = [] := by
    cases maxDepth with
    | zero => exact ⟨rfl, rfl, rfl, rfl⟩
    | succ n =>
      have habort : Search.shouldAbort ctx timeLimit
          { table := st₀.table, stats := Search.emptyStats,
            aborted := false, tick := 0, rtick := st₀.rtick } =
          (true, { table := st₀.table, stats := Search.emptyStats,
                   aborted := true, tick := 1, rtick := st₀.rtick }) := by
        unfold Search.shouldAbort
        simp [ge_iff_le, htime]
      have hloop : Search.sidLoop ctx timeLimit gs c (n + 1) 1 none
          { table := st₀.table, stats := Search.emptyStats,
            aborted := false, tick := 0, rtick := st₀.rtick } =
          (none, { table := st₀.table, stats := Search.emptyStats,
                   aborted := true, tick := 1, rtick := st₀.rtick }) := by
        unfold Search.sidLoop
        rw [habort]
        rfl
      unfold Search.searchIterativeDeepening
      dsimp only
      rw [hloop]
      exact ⟨rfl, rfl, rfl, rfl⟩
  refine ⟨hmain.1, hmain.2.1, hmain.2.2.1, hmain.2.2.2, ?_⟩
  intro hne hnone
  rw [hmain.1] at hnone
  cases hgen : MoveGenerator.generateAllLegalTurns gs c with
  | nil => exact hne hgen
  | cons t rest =>
    rw [hgen] at hnone
    cases hnone

/-- C9 witness: zero time limit on a concrete position. -/
theorem sid_immediate_deadline_fallback_witness :
    (Search.searchIterativeDeepening exCtx exForcedJumpGs .white 3 0
        exSState).1.bestMove =
      (MoveGenerator.generateAllLegalTurns exForcedJumpGs .white).head? ∧
    (Search.searchIterativeDeepening exCtx exForcedJumpGs .white 3 0
        exSState).1.score = .num 0 ∧
    (Search.searchIterativeDeepening exCtx exForcedJumpGs .white 3 0
        exSState).1.depth = 0 ∧
    (Search.searchIterativeDeepening exCtx exForcedJumpGs .white 3 0
        exSState).1.pvLine = [] ∧
    (MoveGenerator.generateAllLegalTurns exForcedJumpGs .white ≠ [] →
      (Search.searchIterativeDeepening exCtx exForcedJumpGs .white 3 0
        exSState).1.bestMove ≠ none) :=
  sid_immediate_deadline_fallback exCtx exForcedJumpGs .white 3 0 exSState
    (Nat.zero_le _)

/-- With no legal turn for the side to move and a clock that never
expires, depth 1 runs, scores `−CHECKMATE`, and the forced-mate break
ends the deepening, so the depth-1 result is returned as-is. -/
theorem sid_no_moves_spec (ctx : Search.SearchCtx) (gs : GameState)
    (c : Color) (maxDepth timeLimit : Nat) (st₀ : Search.SState)
    (hmoves : MoveGenerator.generateAllLegalTurns gs c = [])
    (hdepth : 1 ≤ maxDepth) (htime : ∀ n, ctx.clock n < timeLimit) :
    (Search.searchIterativeDeepening ctx gs c maxDepth timeLimit
        st₀).1.bestMove = none ∧
    (Search.searchIterativeDeepening ctx gs c maxDepth timeLimit
        st₀).1.score = .num (-100000) ∧
    (Search.searchIterativeDeepening ctx gs c maxDepth timeLimit
        st₀).1.depth = 1 := by
  obtain ⟨n, rfl⟩ : ∃ n, maxDepth = n + 1 := by
    cases maxDepth with
    | zero => omega
    | succ n => exact ⟨n, rfl⟩
  have habort : Search.shouldAbort ctx timeLimit
      { table := st₀.table, stats := Search.emptyStats,
        aborted := false, tick := 0, rtick := st₀.rtick } =
      (false, { table := st₀.table, stats := Search.emptyStats,
                aborted := false, tick := 1, rtick := st₀.rtick }) := by
    unfold Search.shouldAbort
    simp [ge_iff_le, not_le.mpr (htime 0)]
  have hroot : Search.searchRoot ctx timeLimit gs c 1
      { table := st₀.table, stats := Search.emptyStats,
        aborted := false, tick := 1, rtick := st₀.rtick } =
      ({ bestMove := none, score := .num (-Evaluator.CHECKMATE_SCORE),
         depth := 1, pvLine := [], stats := Search.emptyStats },
       { table := st₀.table, stats := Search.emptyStats,
         aborted := false, tick := 1, rtick := st₀.rtick }) := by
    unfold Search.searchRoot
    rw [hmoves]
    rfl
  have hmate : JSNum.absGt (.num (-Evaluator.CHECKMATE_SCORE))
      (Evaluator.CHECKMATE_SCORE / 2) = true := by
    norm_num [JSNum.absGt, Evaluator.CHECKMATE_SCORE, abs_of_nonpos]
  have hloop : Search.sidLoop ctx timeLimit gs c (n + 1) 1 none
      { table := st₀.table, stats := Search.emptyStats,
        aborted := false, tick := 0, rtick := st₀.rtick } =
      (some { bestMove := none,
              score := .num (-Evaluator.CHECKMATE_SCORE), depth := 1,
              pvLine := [],
              stats := (Search.finalizeStats ctx
                { table := st₀.table, stats := Search.emptyStats,
                  aborted := false, tick := 1, rtick := st₀.rtick } 1).1 },
       { table := st₀.table, stats := Search.emptyStats,
         aborted := false, tick := 2, rtick := st₀.rtick }) := by
    unfold Search.sidLoop
    rw [habort]
    dsimp only
    rw [hroot]
    simp [hmate, Search.finalizeStats]
  unfold Search.searchIterativeDeepening
  dsimp only
  rw [hloop]
  refine ⟨rfl, ?_, rfl⟩
  show JSNum.num (-Evaluator.CHECKMATE_SCORE) = JSNum.num (-100000)
  norm_num [Evaluator.CHECKMATE_SCORE]

/-- C6 (amended): when the side to move has no legal turn and the clock
never expires, `searchIterativeDeepening` (with `maxDepth ≥ 1`) returns a
null best move and score `−CHECKMATE = −100000`, but its reported depth
is 1 — the depth of the first (and only) completed iteration — not the 0
the claim states. -/
theorem sid_no_moves_result (ctx : Search.SearchCtx) (gs : GameState)
    (c : Color) (maxDepth timeLimit : Nat) (st₀ : Search.SState)
    (hmoves : MoveGenerator.generateAllLegalTurns gs c = [])
    (hdepth : 1 ≤ maxDepth) (htime : ∀ n, ctx.clock n < timeLimit) :
    (Search.searchIterativeDeepening ctx gs c maxDepth timeLimit
        st₀).1.bestMove = none ∧
    (Search.searchIterativeDeepening ctx gs c maxDepth timeLimit
        st₀).1.score = .num (-100000) ∧
    (Search.searchIterativeDeepening ctx gs c maxDepth timeLimit
        st₀).1.depth = 1 :=
  sid_no_moves_spec ctx gs c maxDepth timeLimit st₀ hmoves hdepth htime

set_option maxRecDepth 40000 in
/-- C6 witness: Black to move with no pieces, ample time, depth budget
3.  The no-legal-turn hypothesis is discharged by computing the
generator's output on the concrete position. -/
theorem sid_no_moves_result_witness :
    (Search.searchIterativeDeepening exCtx exNoBlackGs .black 3 5000
        exSState).1.bestMove = none ∧
    (Search.searchIterativeDeepening exCtx exNoBlackGs .black 3 5000
        exSState).1.score = .num (-100000) ∧
    (Search.searchIterativeDeepening exCtx exNoBlackGs .black 3 5000
        exSState).1.depth = 1 :=
  sid_no_moves_result exCtx exNoBlackGs .black 3 5000 exSState
    rfl (by norm_num) (fun _ => by norm_num [exCtx])

set_option maxRecDepth 40000 in
/-- C6 counterexample: on the same no-legal-move position the claim's
null best move and `−CHECKMATE` score do hold, but the reported depth is
1, not the 0 the claim states. -/
theorem sid_no_moves_depth_counterexample :
    (Search.searchIterativeDeepening exCtx exNoBlackGs .black 3 5000
        exSState).1.bestMove = none ∧
    (Search.searchIterativeDeepening exCtx exNoBlackGs .black 3 5000
        exSState).1.score = .num (-100000) ∧
    ¬ (Search.searchIterativeDeepening exCtx exNoBlackGs .black 3 5000
        exSState).1.depth = 0 := by
  have h := sid_no_moves_spec exCtx exNoBlackGs .black 3 5000 exSState
    rfl (by norm_num) (fun _ => by norm_num [exCtx])
  refine ⟨h.1, h.2.1, ?_⟩
  rw [h.2.2]
  norm_num

theorem isTwoAdjacent_facts {fr toSq : Square}
    (h : Coordinates.isTwoAdjacent fr toSq = true) :
    toSq ≠ fr ∧
    ((fr.1 + (toSq.1 - fr.1).sign, fr.2 + (toSq.2 - fr.2).sign) :
      Square) ≠ fr ∧
    ((fr.1 + (toSq.1 - fr.1).sign, fr.2 + (toSq.2 - fr.2).sign) :
      Square) ≠ toSq := by
  unfold Coordinates.isTwoAdjacent at h
  rw [decide_eq_true_eq] at h
  have hs1 := Int.sign_mul_natAbs (toSq.1 - fr.1)
  have hs2 := Int.sign_mul_natAbs (toSq.2 - fr.2)
  rcases h with ⟨ha, hb⟩ | ⟨ha, hb⟩ | ⟨ha, hb⟩
  · have hn1 : (toSq.1 - fr.1).natAbs = 2 := by omega
    have hn2 : (toSq.2 - fr.2).natAbs = 0 := by omega
    rw [hn1] at hs1
    rw [hn2] at hs2
    push_cast at hs1 hs2
    refine ⟨?_, ?_, ?_⟩ <;>
      (intro hEq; simp only [Prod.ext_iff] at hEq; omega)
  · have hn1 : (toSq.1 - fr.1).natAbs = 0 := by omega
    have hn2 : (toSq.2 - fr.2).natAbs = 2 := by omega
    rw [hn1] at hs1
    rw [hn2] at hs2
    push_cast at hs1 hs2
    refine ⟨?_, ?_, ?_⟩ <;>
      (intro hEq; simp only [Prod.ext_iff] at hEq; omega)
  · have hn1 : (toSq.1 - fr.1).natAbs = 2 := by omega
    have hn2 : (toSq.2 - fr.2).natAbs = 2 := by omega
    rw [hn1] at hs1
    rw [hn2] at hs2
    push_cast at hs1 hs2
    refine ⟨?_, ?_, ?_⟩ <;>
      (intro hEq; simp only [Prod.ext_iff] at hEq; omega)

theorem isValidPlainMove_spec {fr toSq : Square} {b : BoardState}
    (h : Logic.isValidPlainMove fr toSq b = true) :
    b toSq = none ∧ toSq ≠ fr := by
  unfold Logic.isValidPlainMove at h
  rw [Bool.and_eq_true] at h
  refine ⟨Option.isNone_iff_eq_none.mp h.2, ?_⟩
  have h1 := h.1
  unfold Coordinates.isOneAdjacent at h1
  rw [decide_eq_true_eq] at h1
  intro hEq
  simp only [Prod.ext_iff] at hEq
  omega

theorem isValidJump_spec {fr toSq : Square} {b : BoardState} {c : Color}
    {mid : Square} (h : Logic.isValidJump fr toSq b c = some mid) :
    mid ∈ Board.ALL_SQUARES ∧ b toSq = none ∧ toSq ≠ fr ∧ mid ≠ fr ∧
    mid ≠ toSq ∧ ∃ mp, b mid = some mp ∧ mp.color = c.opp := by
  unfold Logic.isValidJump at h
  split at h
  · cases h
  · rename_i htwo
    rw [not_not] at htwo
    dsimp only at h
    cases hadj : Coordinates.getAdjacentSquare fr
        (Coordinates.getDirection fr toSq) with
    | none => rw [hadj] at h; cases h
    | some middle =>
      rw [hadj] at h
      dsimp only at h
      cases hbm : b middle with
      | none => rw [hbm] at h; cases h
      | some mp =>
        rw [hbm] at h
        dsimp only at h
        split at h
        · cases h
        · rename_i hmpcol
          split at h
          · cases h
          · rename_i hempty
            injection h with hmm
            subst hmm
            obtain ⟨hmideq, hmidmem⟩ := getAdjacentSquare_spec hadj
            have hfacts := isTwoAdjacent_facts htwo
            have hdir : Coordinates.getDirection fr toSq =
                ((toSq.1 - fr.1).sign, (toSq.2 - fr.2).sign) := rfl
            rw [hdir] at hmideq
            refine ⟨hmidmem, ?_, hfacts.1, ?_, ?_, mp, hbm, ?_⟩
            · rcases hbt : b toSq with _ | p
              · rfl
              · rw [hbt] at hempty
                simp at hempty
            · rw [hmideq]
              exact hfacts.2.1
            · rw [hmideq]
              exact hfacts.2.2
            · cases hc : mp.color <;> cases c <;>
                simp_all [Color.opp]

theorem isValidCanter_spec {fr toSq : Square} {b : BoardState} {c : Color}
    {mid : Square} (h : Logic.isValidCanter fr toSq b c = some mid) :
    b toSq = none ∧ toSq ≠ fr := by
  unfold Logic.isValidCanter at h
  split at h
  · cases h
  · rename_i htwo
    rw [not_not] at htwo
    dsimp only at h
    cases hadj : Coordinates.getAdjacentSquare fr
        (Coordinates.getDirection fr toSq) with
    | none => rw [hadj] at h; cases h
    | some middle =>
      rw [hadj] at h
      dsimp only at h
      cases hbm : b middle with
      | none => rw [hbm] at h; cases h
      | some mp =>
        rw [hbm] at h
        dsimp only at h
        split at h
        · cases h
        · split at h
          · cases h
          · rename_i hempty
            refine ⟨?_, (isTwoAdjacent_facts htwo).1⟩
            rcases hbt : b toSq with _ | p
            · rfl
            · rw [hbt] at hempty
              simp at hempty

theorem nextMoveCandidates_valid {toSq : Square} {nb : BoardState}
    {c : Color} {own : List Square} {a₁ a₂ a₃ a₄ : Bool} {m : LegalMove}
    (hm : m ∈ Logic.nextMoveCandidates toSq nb c own a₁ a₂ a₃ a₄) :
    m.toSquare ∈ Board.ALL_SQUARES := by
  unfold Logic.nextMoveCandidates at hm
  rw [List.mem_flatMap] at hm
  obtain ⟨d, _, hm⟩ := hm
  cases h1 : Coordinates.getAdjacentSquare toSq d with
  | none => rw [h1] at hm; cases hm
  | some one =>
    rw [h1] at hm
    dsimp only at hm
    cases h2 : Coordinates.getAdjacentSquare one d with
    | none => rw [h2] at hm; cases hm
    | some two =>
      rw [h2] at hm
      dsimp only at hm
      have htwo := (getAdjacentSquare_spec h2).2
      split at hm
      · rw [List.mem_singleton] at hm
        rw [hm]
        exact htwo
      · split at hm
        · cases hm
        · split at hm
          · split at hm
            · rw [List.mem_singleton] at hm
              rw [hm]
              exact htwo
            · cases hm
          · cases hm

/-- Inversion of the execution half: the visited path is extended by
exactly the destination, the captures and the new board are determined
by whether the step is a jump, every offered continuation is an
addressable square, and landing in the opponent's castle ends the turn
with no continuations. -/
theorem executeStepExec_spec {toSq fr : Square} {b : BoardState}
    {ts : TurnState} {c : Color} {piece : Piece}
    {ownCastle oppCastle : List Square} {r : StepOk}
    (h : Logic.executeStepExec toSq fr b ts c piece ownCastle oppCastle
          = .ok r) :
    r.newTurnState.moves = ts.moves ++ [toSq] ∧
    (match Logic.isValidJump fr toSq b c with
     | some mid =>
       r.newTurnState.capturedSquares = ts.capturedSquares ++ [mid] ∧
       r.newBoardState =
         Function.update (Function.update
           (Function.update b toSq (some piece)) fr none) mid none
     | none =>
       r.newTurnState.capturedSquares = ts.capturedSquares ∧
       r.newBoardState =
         Function.update (Function.update b toSq (some piece)) fr none) ∧
    (∀ m ∈ r.legalNextMoves, m.toSquare ∈ Board.ALL_SQUARES) ∧
    (toSq ∈ oppCastle →
      r.legalNextMoves = [] ∧ r.newTurnState.mustContinue = false) := by
  unfold Logic.executeStepExec at h
  dsimp only at h
  split at h
  · -- landed in the opponent's castle
    rename_i hcastle
    cases h
    refine ⟨rfl, ?_, ?_, ?_⟩
    · cases hj : Logic.isValidJump fr toSq b c <;>
        simp [hj, Logic.stepTurnState, Logic.stepBoard]
    · intro m hm
      cases hm
    · intro _
      exact ⟨rfl, rfl⟩
  · rename_i hncastle
    split at h
    · -- plain move: no continuations
      cases h
      refine ⟨rfl, ?_, ?_, ?_⟩
      · cases hj : Logic.isValidJump fr toSq b c <;>
          simp [hj, Logic.stepTurnState, Logic.stepBoard]
      · intro m hm
        cases hm
      · intro hc
        exact absurd hc hncastle
    · -- canter or jump: continuation scan
      split at h
      all_goals try split at h
      all_goals try split at h
      all_goals try split at h
      all_goals cases h
      all_goals refine ⟨rfl, ?_, ?_, ?_⟩
      all_goals try (intro hc; exact absurd hc hncastle)
      all_goals
        try ((cases hj : Logic.isValidJump fr toSq b c <;>
          simp [hj, Logic.stepTurnState, Logic.stepBoard]) <;> done)
      all_goals intro m hm
      all_goals dsimp only at hm
      all_goals
        first
        | exact nextMoveCandidates_valid (List.mem_of_mem_filter hm)
        | exact nextMoveCandidates_valid hm

/-- Inversion of a successful `executeStep`: additionally, the moving
piece is the side's piece on the last visited square and the
destination was empty and distinct from the source. -/
theorem executeStep_ok_spec {toSq : Square} {b : BoardState}
    {ts : TurnState} {c : Color} {r : StepOk}
    (h : Logic.executeStep toSq b ts c = .ok r) :
    ∃ fr piece,
      ts.moves.getLast? = some fr ∧ b fr = some piece ∧
      piece.color = c ∧ b toSq = none ∧ toSq ≠ fr ∧
      r.newTurnState.moves = ts.moves ++ [toSq] ∧
      (match Logic.isValidJump fr toSq b c with
       | some mid =>
         r.newTurnState.capturedSquares = ts.capturedSquares ++ [mid] ∧
         r.newBoardState =
           Function.update (Function.update
             (Function.update b toSq (some piece)) fr none) mid none
       | none =>
         r.newTurnState.capturedSquares = ts.capturedSquares ∧
         r.newBoardState =
           Function.update (Function.update b toSq (some piece)) fr
             none) ∧
      (∀ m ∈ r.legalNextMoves, m.toSquare ∈ Board.ALL_SQUARES) ∧
      (toSq ∈ (if c = Color.white then Board.BLACK_CASTLE
               else Board.WHITE_CASTLE) →
        r.legalNextMoves = [] ∧ r.newTurnState.mustContinue = false) := by
  unfold Logic.executeStep at h
  cases hlast : ts.moves.getLast? with
  | none => rw [hlast] at h; cases h
  | some fr =>
    rw [hlast] at h
    dsimp only at h
    cases hpc : b fr with
    | none => rw [hpc] at h; cases h
    | some piece =>
      rw [hpc] at h
      dsimp only at h
      split at h
      · cases h
      · rename_i hcol
        rw [not_not] at hcol
        refine ⟨fr, piece, rfl, hpc, hcol, ?_⟩
        split at h
        · cases h
        · rename_i hval
          have hbase : b toSq = none ∧ toSq ≠ fr := by
            by_cases hp : Logic.isValidPlainMove fr toSq b = true
            · exact isValidPlainMove_spec hp
            · by_cases hj : Logic.isValidJump fr toSq b c = none
              · have hcan : Logic.isValidCanter fr toSq b c ≠ none := by
                  tauto
                obtain ⟨mid, hmid⟩ :=
                  Option.ne_none_iff_exists'.mp hcan
                exact isValidCanter_spec hmid
              · obtain ⟨mid, hmid⟩ := Option.ne_none_iff_exists'.mp hj
                have hs := isValidJump_spec hmid
                exact ⟨hs.2.1, hs.2.2.1⟩
          refine ⟨hbase.1, hbase.2, ?_⟩
          split at h
          all_goals try split at h
          all_goals try split at h
          all_goals try split at h
          all_goals
            first
            | cases h
            | exact executeStepExec_spec h


/-- Every landing square reported by `checkFirstMovePossibleJumps` is an
addressable square (it is produced by `getAdjacentSquare`). -/
theorem checkFirstMovePossibleJumps_valid {b : BoardState} {c : Color}
    {m : Square} (hm : m ∈ Logic.checkFirstMovePossibleJumps b c) :
    m ∈ Board.ALL_SQUARES := by
  unfold Logic.checkFirstMovePossibleJumps at hm
  rw [List.mem_flatMap] at hm
  obtain ⟨sq, _, hm⟩ := hm
  cases hbs : b sq with
  | none => rw [hbs] at hm; cases hm
  | some p =>
    rw [hbs] at hm
    dsimp only at hm
    split at hm
    · rw [List.mem_flatMap] at hm
      obtain ⟨d, _, hm⟩ := hm
      cases h1 : Coordinates.getAdjacentSquare sq d with
      | none => rw [h1] at hm; cases hm
      | some one =>
        rw [h1] at hm
        dsimp only at hm
        cases h2 : Coordinates.getAdjacentSquare one d with
        | none => rw [h2] at hm; cases hm
        | some two =>
          rw [h2] at hm
          dsimp only at hm
          split at hm
          · rw [List.mem_singleton] at hm
            rw [hm]
            exact (getAdjacentSquare_spec h2).2
          · cases hm
    · cases hm

/-- Every initial move offered by `getInitialMoves` is an addressable
square. -/
theorem getInitialMoves_valid {square : Square} {b : BoardState} {c : Color}
    {m : Square} (hm : m ∈ Logic.getInitialMoves square b c) :
    m ∈ Board.ALL_SQUARES := by
  unfold Logic.getInitialMoves at hm
  cases hbs : b square with
  | none => rw [hbs] at hm; cases hm
  | some piece =>
    rw [hbs] at hm
    dsimp only at hm
    split at hm
    · cases hm
    · split at hm
      · exact checkFirstMovePossibleJumps_valid (List.mem_of_mem_filter hm)
      · rw [List.mem_flatMap] at hm
        obtain ⟨d, _, hm⟩ := hm
        cases h1 : Coordinates.getAdjacentSquare square d with
        | none => rw [h1] at hm; cases hm
        | some one =>
          rw [h1] at hm
          dsimp only at hm
          rw [List.mem_append] at hm
          rcases hm with hm | hm
          · split at hm
            all_goals try split at hm
            all_goals
              first
              | (rw [List.mem_singleton] at hm
                 rw [hm]
                 exact (getAdjacentSquare_spec h1).2)
              | cases hm
          · cases h2 : Coordinates.getAdjacentSquare one d with
            | none => rw [h2] at hm; cases hm
            | some two =>
              rw [h2] at hm
              dsimp only at hm
              cases h3 : Logic.isValidCanter square two b c with
              | none => rw [h3] at hm; cases hm
              | some mid =>
                rw [h3] at hm
                dsimp only at hm
                split at hm
                all_goals try split at hm
                all_goals
                  first
                  | (rw [List.mem_singleton] at hm
                     rw [hm]
                     exact (getAdjacentSquare_spec h2).2)
                  | cases hm

/-- When any first-move jump exists, every offered initial move is itself
a legal jump (the `possibleJumps.filter` branch of `getInitialMoves`). -/
theorem getInitialMoves_jump {square : Square} {b : BoardState} {c : Color}
    {m : Square} (hj : Logic.checkFirstMovePossibleJumps b c ≠ [])
    (hm : m ∈ Logic.getInitialMoves square b c) :
    (Logic.isValidJump square m b c).isSome = true := by
  unfold Logic.getInitialMoves at hm
  cases hbs : b square with
  | none => rw [hbs] at hm; cases hm
  | some piece =>
    rw [hbs] at hm
    dsimp only at hm
    split at hm
    · cases hm
    · split at hm
      · exact (List.mem_filter.mp hm).2
      · rename_i hlen
        exact absurd (List.length_eq_zero.mp (by omega)) hj

/-- The notation-deduplication pass only drops elements. -/
theorem dedupByNotationStr_subset {seen : List String}
    {l : List CompleteTurn} {t : CompleteTurn}
    (ht : t ∈ MoveGenerator.dedupByNotationStr seen l) : t ∈ l := by
  induction l generalizing seen with
  | nil =>
    simp only [MoveGenerator.dedupByNotationStr] at ht
    cases ht
  | cons a l ih =>
    simp only [MoveGenerator.dedupByNotationStr] at ht
    split at ht
    · exact List.mem_cons_of_mem a (ih ht)
    · rcases List.mem_cons.mp ht with h | h
      · rw [h]
        exact List.mem_cons_self a l
      · exact List.mem_cons_of_mem a (ih h)

/-- Inversion of membership in `exploreTurnRecursive`: an emitted turn is
either the fuel-exhaustion snapshot of the state passed in, or the
completion of one or more validated steps from the pending destination. -/
theorem explore_mem {c : Color} {isF : Bool} {fuel : Nat} {toSq : Square}
    {b : BoardState} {ts : TurnState} {t : CompleteTurn}
    (ht : t ∈ MoveGenerator.exploreTurnRecursive c isF fuel toSq b ts) :
    (fuel = 0 ∧ t = MoveGenerator.createCompleteTurn b ts isF ∧
      ts.moves ≠ []) ∨
    (∃ b' ts', StepsPlus c toSq b ts b' ts' ∧
      t = MoveGenerator.createCompleteTurn b' ts' isF) := by
  induction fuel generalizing toSq b ts with
  | zero =>
    left
    simp only [MoveGenerator.exploreTurnRecursive] at ht
    split at ht
    · rename_i hlen
      rw [List.mem_singleton] at ht
      refine ⟨rfl, ht, ?_⟩
      intro hnil
      rw [hnil] at hlen
      simp at hlen
    · cases ht
  | succ fuel ih =>
    simp only [MoveGenerator.exploreTurnRecursive] at ht
    cases hstep : Logic.executeStep toSq b ts c with
    | error msg => rw [hstep] at ht; cases ht
    | ok r =>
      rw [hstep] at ht
      dsimp only at ht
      right
      split at ht
      · rw [List.mem_flatMap] at ht
        obtain ⟨m, hmF, hrec⟩ := ht
        have hmem : m ∈ r.legalNextMoves := List.mem_of_mem_filter hmF
        have hcond := of_decide_eq_true ((List.mem_filter.mp hmF).2)
        rcases ih hrec with ⟨_, hteq, _⟩ | ⟨b', ts', hsteps, hteq⟩
        · exact ⟨_, _, .done hstep, hteq⟩
        · exact ⟨b', ts', .cons hstep hmem hcond hsteps, hteq⟩
      · split at ht
        · rcases List.mem_cons.mp ht with hteq | ht
          · exact ⟨_, _, .done hstep, hteq⟩
          · rw [List.mem_flatMap] at ht
            obtain ⟨m, hmF, hrec⟩ := ht
            have hmF₁ := List.mem_of_mem_filter hmF
            have hmem : m ∈ r.legalNextMoves := List.mem_of_mem_filter hmF₁
            have hcond := of_decide_eq_true ((List.mem_filter.mp hmF₁).2)
            rcases ih hrec with ⟨_, hteq, _⟩ | ⟨b', ts', hsteps, hteq⟩
            · exact ⟨_, _, .done hstep, hteq⟩
            · exact ⟨b', ts', .cons hstep hmem hcond hsteps, hteq⟩
        · rw [List.mem_singleton] at ht
          exact ⟨_, _, .done hstep, ht⟩

/-- Inversion of membership in `generateAllLegalTurns`: an emitted turn
comes from exploring an initial move of one of the mover's pieces. -/
theorem generateAllLegalTurns_mem {gs : GameState} {c : Color}
    {t : CompleteTurn}
    (ht : t ∈ MoveGenerator.generateAllLegalTurns gs c) :
    ∃ square piece m,
      square ∈ Board.ALL_SQUARES ∧
      gs.board_state square = some piece ∧ piece.color = c ∧
      m ∈ Logic.getInitialMoves square gs.board_state c ∧
      t ∈ MoveGenerator.exploreTurnRecursive c
        (decide
          ((Logic.checkFirstMovePossibleJumps gs.board_state c).length > 0))
        16 m gs.board_state (Logic.createEmptyTurnState square) := by
  unfold MoveGenerator.generateAllLegalTurns at ht
  dsimp only at ht
  have ht2 := dedupByNotationStr_subset ht
  rw [List.mem_flatMap] at ht2
  obtain ⟨square, hsq, ht2⟩ := ht2
  cases hbs : gs.board_state square with
  | none => rw [hbs] at ht2; cases ht2
  | some piece =>
    rw [hbs] at ht2
    dsimp only at ht2
    split at ht2
    · rename_i hcol
      rw [List.mem_flatMap] at ht2
      obtain ⟨m, hmI, hexp⟩ := ht2
      exact ⟨square, piece, m, hsq, hbs, hcol, hmI, hexp⟩
    · cases ht2



/-- The head of a nonempty list survives appending on the right. -/
theorem headI_append_left {α : Type _} [Inhabited α] {l₁ : List α}
    (l₂ : List α) (h : l₁ ≠ []) : (l₁ ++ l₂).headI = l₁.headI := by
  cases l₁ with
  | nil => exact absurd rfl h
  | cons a l => rfl

/-- The captured-squares list only grows along a run of steps. -/
theorem stepsPlus_captures_mono {c : Color} {toSq : Square} {b : BoardState}
    {ts : TurnState} {b' : BoardState} {ts' : TurnState}
    (h : StepsPlus c toSq b ts b' ts') :
    ∃ l, ts'.capturedSquares = ts.capturedSquares ++ l := by
  induction h with
  | done hstep =>
    rename_i t0 b0 ts0 r0
    obtain ⟨fr, piece, _, _, _, _, _, _, hmatch, _, _⟩ :=
      executeStep_ok_spec hstep
    cases hj : Logic.isValidJump fr t0 b0 c with
    | some mid =>
      simp only [hj] at hmatch
      exact ⟨[mid], hmatch.1⟩
    | none =>
      simp only [hj] at hmatch
      exact ⟨[], by rw [hmatch.1, List.append_nil]⟩
  | cons hstep hm hrv hrest ih =>
    rename_i t0 b0 ts0 r0 m0 b1 ts1
    obtain ⟨l₂, h₂⟩ := ih
    obtain ⟨fr, piece, _, _, _, _, _, _, hmatch, _, _⟩ :=
      executeStep_ok_spec hstep
    cases hj : Logic.isValidJump fr t0 b0 c with
    | some mid =>
      simp only [hj] at hmatch
      exact ⟨[mid] ++ l₂, by rw [h₂, hmatch.1, List.append_assoc]⟩
    | none =>
      simp only [hj] at hmatch
      exact ⟨l₂, by rw [h₂, hmatch.1]⟩

/-- If the first executed step of a run is a jump, the final captured
list is nonempty. -/
theorem stepsPlus_captures_nonempty {c : Color} {toSq : Square}
    {b : BoardState} {ts : TurnState} {b' : BoardState} {ts' : TurnState}
    (h : StepsPlus c toSq b ts b' ts')
    (hjump : ∀ fr, ts.moves.getLast? = some fr →
      (Logic.isValidJump fr toSq b c).isSome = true) :
    ts'.capturedSquares ≠ [] := by
  cases h with
  | done hstep =>
    obtain ⟨fr, piece, hlast, _, _, _, _, _, hmatch, _, _⟩ :=
      executeStep_ok_spec hstep
    obtain ⟨mid, hj⟩ := Option.isSome_iff_exists.mp (hjump fr hlast)
    simp only [hj] at hmatch
    rw [hmatch.1]
    simp
  | cons hstep hm hrv hrest =>
    obtain ⟨fr, piece, hlast, _, _, _, _, _, hmatch, _, _⟩ :=
      executeStep_ok_spec hstep
    obtain ⟨mid, hj⟩ := Option.isSome_iff_exists.mp (hjump fr hlast)
    simp only [hj] at hmatch
    obtain ⟨l₂, h₂⟩ := stepsPlus_captures_mono hrest
    rw [h₂, hmatch.1]
    simp

/-- Along a run of steps from an addressable pending destination and a
path of addressable squares, the final path is nonempty and the final
path and captured squares are all addressable. -/
theorem stepsPlus_valid {c : Color} {toSq : Square} {b : BoardState}
    {ts : TurnState} {b' : BoardState} {ts' : TurnState}
    (h : StepsPlus c toSq b ts b' ts')
    (htS : toSq ∈ Board.ALL_SQUARES)
    (hmv : ∀ sq ∈ ts.moves, sq ∈ Board.ALL_SQUARES)
    (hcp : ∀ sq ∈ ts.capturedSquares, sq ∈ Board.ALL_SQUARES) :
    ts'.moves ≠ [] ∧ (∀ sq ∈ ts'.moves, sq ∈ Board.ALL_SQUARES) ∧
    (∀ sq ∈ ts'.capturedSquares, sq ∈ Board.ALL_SQUARES) := by
  induction h with
  | done hstep =>
    rename_i t0 b0 ts0 r0
    obtain ⟨fr, piece, _, _, _, _, _, hmvs, hmatch, _, _⟩ :=
      executeStep_ok_spec hstep
    refine ⟨?_, ?_, ?_⟩
    · rw [hmvs]
      simp
    · rw [hmvs]
      intro sq hsq
      rcases List.mem_append.mp hsq with hh | hh
      · exact hmv sq hh
      · rw [List.mem_singleton] at hh
        rw [hh]
        exact htS
    · cases hj : Logic.isValidJump fr t0 b0 c with
      | some mid =>
        simp only [hj] at hmatch
        rw [hmatch.1]
        intro sq hsq
        rcases List.mem_append.mp hsq with hh | hh
        · exact hcp sq hh
        · rw [List.mem_singleton] at hh
          rw [hh]
          exact (isValidJump_spec hj).1
      | none =>
        simp only [hj] at hmatch
        rw [hmatch.1]
        exact hcp
  | cons hstep hm hrv hrest ih =>
    rename_i t0 b0 ts0 r0 m0 b1 ts1
    obtain ⟨fr, piece, _, _, _, _, _, hmvs, hmatch, hval, _⟩ :=
      executeStep_ok_spec hstep
    apply ih
    · exact hval m0 hm
    · rw [hmvs]
      intro sq hsq
      rcases List.mem_append.mp hsq with hh | hh
      · exact hmv sq hh
      · rw [List.mem_singleton] at hh
        rw [hh]
        exact htS
    · cases hj : Logic.isValidJump fr t0 b0 c with
      | some mid =>
        simp only [hj] at hmatch
        rw [hmatch.1]
        intro sq hsq
        rcases List.mem_append.mp hsq with hh | hh
        · exact hcp sq hh
        · rw [List.mem_singleton] at hh
          rw [hh]
          exact (isValidJump_spec hj).1
      | none =>
        simp only [hj] at hmatch
        rw [hmatch.1]
        exact hcp

/-- Along a run of steps, no visited square other than the first and
the last lies in the opponent castle: landing there offers no
continuations, so no later step can depart from it. -/
theorem stepsPlus_castle {c : Color} {toSq : Square} {b : BoardState}
    {ts : TurnState} {b' : BoardState} {ts' : TurnState}
    (h : StepsPlus c toSq b ts b' ts')
    (hne : ts.moves ≠ [])
    (hts : ∀ sq ∈ ts.moves.tail, sq ∉ oppCastleOf c) :
    ∀ sq ∈ ts'.moves.tail.dropLast, sq ∉ oppCastleOf c := by
  induction h with
  | done hstep =>
    rename_i t0 b0 ts0 r0
    obtain ⟨fr, piece, _, _, _, _, _, hmvs, _, _, _⟩ :=
      executeStep_ok_spec hstep
    rw [hmvs]
    cases hmoves : ts0.moves with
    | nil => exact absurd hmoves hne
    | cons a l =>
      rw [List.cons_append, List.tail_cons, List.dropLast_concat]
      rw [hmoves] at hts
      exact hts
  | cons hstep hm hrv hrest ih =>
    rename_i t0 b0 ts0 r0 m0 b1 ts1
    obtain ⟨fr, piece, _, _, _, _, _, hmvs, _, hval, hcastle⟩ :=
      executeStep_ok_spec hstep
    have ht0 : t0 ∉ oppCastleOf c := by
      intro hmem
      have h0 := hcastle hmem
      rw [h0.1] at hm
      cases hm
    apply ih
    · rw [hmvs]
      simp
    · rw [hmvs]
      cases hmoves : ts0.moves with
      | nil => exact absurd hmoves hne
      | cons a l =>
        rw [List.cons_append, List.tail_cons]
        intro sq hsq
        rcases List.mem_append.mp hsq with hh | hh
        · rw [hmoves] at hts
          exact hts sq hh
        · rw [List.mem_singleton] at hh
          rw [hh]
          exact ht0

/-- Along a run of steps, the origin of the path is preserved and no
square other than the origin is visited twice (the explorer filters
continuations that would revisit anything but the start square). -/
theorem stepsPlus_no_revisit {c : Color} {toSq : Square} {b : BoardState}
    {ts : TurnState} {b' : BoardState} {ts' : TurnState}
    (h : StepsPlus c toSq b ts b' ts')
    (hne : ts.moves ≠ [])
    (hpend : toSq = ts.moves.headI ∨ ¬ toSq ∈ ts.moves)
    (hcnt : ∀ sq, sq ≠ ts.moves.headI → ts.moves.count sq ≤ 1) :
    ts'.moves.headI = ts.moves.headI ∧
    (∀ sq, sq ≠ ts.moves.headI → ts'.moves.count sq ≤ 1) := by
  induction h with
  | done hstep =>
    rename_i t0 b0 ts0 r0
    obtain ⟨fr, piece, _, _, _, _, _, hmvs, _, _, _⟩ :=
      executeStep_ok_spec hstep
    rw [hmvs]
    refine ⟨headI_append_left _ hne, ?_⟩
    intro sq hsq
    rw [List.count_append]
    by_cases hst : sq = t0
    · subst hst
      rcases hpend with hp | hp
      · exact absurd hp hsq
      · rw [List.count_eq_zero.mpr hp]
        simp
    · rw [List.count_eq_zero.mpr (by simp [hst] : sq ∉ [t0])]
      have := hcnt sq hsq
      omega
  | cons hstep hm hrv hrest ih =>
    rename_i t0 b0 ts0 r0 m0 b1 ts1
    obtain ⟨fr, piece, _, _, _, _, _, hmvs, _, _, _⟩ :=
      executeStep_ok_spec hstep
    have hne1 : r0.newTurnState.moves ≠ [] := by
      rw [hmvs]
      simp
    have hhead : r0.newTurnState.moves.headI = ts0.moves.headI := by
      rw [hmvs]
      exact headI_append_left _ hne
    have hcnt1 : ∀ sq, sq ≠ r0.newTurnState.moves.headI →
        r0.newTurnState.moves.count sq ≤ 1 := by
      intro sq hsq
      rw [hhead] at hsq
      rw [hmvs, List.count_append]
      by_cases hst : sq = t0
      · subst hst
        rcases hpend with hp | hp
        · exact absurd hp hsq
        · rw [List.count_eq_zero.mpr hp]
          simp
      · rw [List.count_eq_zero.mpr (by simp [hst] : sq ∉ [t0])]
        have := hcnt sq hsq
        omega
    obtain ⟨ih1, ih2⟩ := ih hne1 hrv hcnt1
    refine ⟨?_, ?_⟩
    · rw [ih1]
      exact hhead
    · intro sq hsq
      apply ih2
      rw [hhead]
      exact hsq



/-- A color differs from its opposite. -/
theorem Color.self_ne_opp (c : Color) : c ≠ c.opp := by
  cases c <;> decide

set_option maxRecDepth 10000 in
/-- The 160 addressable squares are pairwise distinct. -/
theorem allSquares_nodup : Board.ALL_SQUARES.Nodup := by decide

/-- Changing a predicate at a single member of a duplicate-free list
shifts `countP` by the difference at that member. -/
theorem countP_pointwise {α : Type _} {p q : α → Bool} {a : α} :
    ∀ {l : List α}, l.Nodup → a ∈ l → (∀ x ∈ l, x ≠ a → p x = q x) →
      l.countP p + (if q a then 1 else 0) =
        l.countP q + (if p a then 1 else 0)
  | [], _, ha, _ => absurd ha (List.not_mem_nil a)
  | x :: l, hnd, ha, hpq => by
    rw [List.countP_cons, List.countP_cons]
    rcases List.mem_cons.mp ha with hxa | ha2
    · subst hxa
      have hnotin : a ∉ l := (List.nodup_cons.mp hnd).1
      have hcong : l.countP p = l.countP q := by
        apply List.countP_congr
        intro y hy
        rw [hpq y (List.mem_cons_of_mem a hy) (fun he => hnotin (he ▸ hy))]
      rw [hcong]
      cases hq : q a <;> cases hp : p a <;> simp [hq, hp]
    · have hxa : x ≠ a := by
        intro he
        rw [he] at hnd
        exact (List.nodup_cons.mp hnd).1 ha2
      have hpx : p x = q x := hpq x (List.mem_cons_self x l) hxa
      have hrec := countP_pointwise (List.nodup_cons.mp hnd).2 ha2
        (fun y hy hya => hpq y (List.mem_cons_of_mem x hy) hya)
      rw [hpx]
      cases hqa : q a <;> cases hpa : p a <;> cases hqx : q x <;>
        simp [hqa, hpa, hqx] at hrec ⊢ <;> omega

/-- Updating one addressable square shifts each color count by the
difference between the old and the new occupant. -/
theorem countColor_update {b : BoardState} {sq : Square} {v : Option Piece}
    {c : Color} (hsq : sq ∈ Board.ALL_SQUARES) :
    countColor (Function.update b sq v) c +
      (if colorMatches c (b sq) then 1 else 0) =
    countColor b c + (if colorMatches c v then 1 else 0) := by
  unfold countColor
  rw [← List.countP_eq_length_filter, ← List.countP_eq_length_filter]
  have hoff : ∀ x ∈ Board.ALL_SQUARES, x ≠ sq →
      (fun s => colorMatches c (Function.update b sq v s)) x =
      (fun s => colorMatches c (b s)) x := by
    intro x _ hx
    dsimp only
    rw [Function.update_noteq hx]
  have hmain := countP_pointwise allSquares_nodup hsq hoff
  rw [Function.update_same] at hmain
  exact hmain

/-- Placing a friendly piece on an empty addressable square raises that
color's count by one. -/
theorem countColor_place_same {b : BoardState} {sq : Square} {piece : Piece}
    {c : Color} (hsq : sq ∈ Board.ALL_SQUARES) (hempty : b sq = none)
    (hc : piece.color = c) :
    countColor (Function.update b sq (some piece)) c = countColor b c + 1 := by
  have e := @countColor_update b sq (some piece) c hsq
  rw [hempty] at e
  have h1 : colorMatches c none = false := rfl
  have h2 : colorMatches c (some piece) = true := by simp [colorMatches, hc]
  rw [h1, h2] at e
  simpa using e

/-- Placing a piece of the other color on an empty addressable square
leaves this color's count unchanged. -/
theorem countColor_place_other {b : BoardState} {sq : Square} {piece : Piece}
    {c : Color} (hsq : sq ∈ Board.ALL_SQUARES) (hempty : b sq = none)
    (hc : piece.color ≠ c) :
    countColor (Function.update b sq (some piece)) c = countColor b c := by
  have e := @countColor_update b sq (some piece) c hsq
  rw [hempty] at e
  have h1 : colorMatches c none = false := rfl
  have h2 : colorMatches c (some piece) = false := by simp [colorMatches, hc]
  rw [h1, h2] at e
  simpa using e

/-- Clearing an addressable square occupied by a friendly piece lowers
that color's count by one. -/
theorem countColor_clear_same {b : BoardState} {sq : Square} {piece : Piece}
    {c : Color} (hsq : sq ∈ Board.ALL_SQUARES) (hocc : b sq = some piece)
    (hc : piece.color = c) :
    countColor (Function.update b sq none) c + 1 = countColor b c := by
  have e := @countColor_update b sq none c hsq
  rw [hocc] at e
  have h1 : colorMatches c none = false := rfl
  have h2 : colorMatches c (some piece) = true := by simp [colorMatches, hc]
  rw [h1, h2] at e
  simpa using e

/-- Clearing an addressable square occupied by a piece of the other
color leaves this color's count unchanged. -/
theorem countColor_clear_other {b : BoardState} {sq : Square} {piece : Piece}
    {c : Color} (hsq : sq ∈ Board.ALL_SQUARES) (hocc : b sq = some piece)
    (hc : piece.color ≠ c) :
    countColor (Function.update b sq none) c = countColor b c := by
  have e := @countColor_update b sq none c hsq
  rw [hocc] at e
  have h1 : colorMatches c none = false := rfl
  have h2 : colorMatches c (some piece) = false := by simp [colorMatches, hc]
  rw [h1, h2] at e
  simpa using e

/-- A successful step preserves the mover's piece count and trades the
opponent's piece count one-for-one against the captured list. -/
theorem executeStep_count {toSq : Square} {b : BoardState} {ts : TurnState}
    {c : Color} {r : StepOk}
    (h : Logic.executeStep toSq b ts c = .ok r)
    (htS : toSq ∈ Board.ALL_SQUARES)
    (hmv : ∀ sq ∈ ts.moves, sq ∈ Board.ALL_SQUARES) :
    countColor r.newBoardState c = countColor b c ∧
    countColor r.newBoardState c.opp +
        r.newTurnState.capturedSquares.length =
      countColor b c.opp + ts.capturedSquares.length := by
  obtain ⟨fr, piece, hlast, hbfr, hcol, hbto, hnefr, hmvs, hmatch, hval, _⟩ :=
    executeStep_ok_spec h
  have hfr : fr ∈ Board.ALL_SQUARES :=
    hmv fr (List.mem_of_getLast?_eq_some hlast)
  have hfrne : fr ≠ toSq := Ne.symm hnefr
  have hb1fr : Function.update b toSq (some piece) fr = some piece := by
    rw [Function.update_noteq hfrne]
    exact hbfr
  have hoppne : piece.color ≠ c.opp := by
    rw [hcol]
    exact Color.self_ne_opp c
  have a1 := countColor_place_same htS hbto hcol
  have o1 := countColor_place_other htS hbto hoppne
  have a2 := countColor_clear_same hfr hb1fr hcol
  have o2 := countColor_clear_other hfr hb1fr hoppne
  cases hj : Logic.isValidJump fr toSq b c with
  | none =>
    simp only [hj] at hmatch
    rw [hmatch.2, hmatch.1]
    omega
  | some mid =>
    obtain ⟨hmidmem, _, _, hmidfr, hmidto, mp, hbmid, hmpc⟩ :=
      isValidJump_spec hj
    simp only [hj] at hmatch
    have hb2mid : Function.update (Function.update b toSq (some piece)) fr
        none mid = some mp := by
      rw [Function.update_noteq hmidfr, Function.update_noteq hmidto]
      exact hbmid
    have hmpne : mp.color ≠ c := by
      rw [hmpc]
      exact Ne.symm (Color.self_ne_opp c)
    have a3 := countColor_clear_other hmidmem hb2mid hmpne
    have o3 := countColor_clear_same hmidmem hb2mid hmpc
    rw [hmatch.2, hmatch.1, List.length_append]
    constructor
    · omega
    · simp only [List.length_singleton]
      omega

/-- Along a run of steps the mover's piece count is preserved and the
opponent's piece count decreases exactly by the captures added. -/
theorem stepsPlus_count {c : Color} {toSq : Square} {b : BoardState}
    {ts : TurnState} {b' : BoardState} {ts' : TurnState}
    (h : StepsPlus c toSq b ts b' ts')
    (htS : toSq ∈ Board.ALL_SQUARES)
    (hmv : ∀ sq ∈ ts.moves, sq ∈ Board.ALL_SQUARES) :
    countColor b' c = countColor b c ∧
    countColor b' c.opp + ts'.capturedSquares.length =
      countColor b c.opp + ts.capturedSquares.length := by
  induction h with
  | done hstep => exact executeStep_count hstep htS hmv
  | cons hstep hm hrv hrest ih =>
    rename_i t0 b0 ts0 r0 m0 b1 ts1
    obtain ⟨fr, piece, _, _, _, _, _, hmvs, _, hval, _⟩ :=
      executeStep_ok_spec hstep
    have hstepc := executeStep_count hstep htS hmv
    have hmv1 : ∀ sq ∈ r0.newTurnState.moves, sq ∈ Board.ALL_SQUARES := by
      rw [hmvs]
      intro sq hsq
      rcases List.mem_append.mp hsq with hh | hh
      · exact hmv sq hh
      · rw [List.mem_singleton] at hh
        rw [hh]
        exact htS
    have hrecc := ih (hval m0 hm) hmv1
    refine ⟨?_, ?_⟩
    · rw [hrecc.1, hstepc.1]
    · omega



/-- The default head of a nonempty list is a member. -/
theorem list_headI_mem {α : Type _} [Inhabited α] {l : List α}
    (h : l ≠ []) : l.headI ∈ l := by
  cases l with
  | nil => exact absurd rfl h
  | cons a t => exact List.mem_cons_self a t

/-- C1: mandatory capture — whenever any single-step jump is available
to the side to move (`checkFirstMovePossibleJumps` is nonempty), every
complete turn produced by `generateAllLegalTurns` captures at least one
piece. -/
theorem mandatory_capture (gs : GameState) (c : Color)
    (hj : Logic.checkFirstMovePossibleJumps gs.board_state c ≠ []) :
    ∀ t ∈ MoveGenerator.generateAllLegalTurns gs c,
      t.capturedSquares ≠ [] := by
  intro t ht
  obtain ⟨square, piece, m, hsqA, hbs, hcol, hmI, hexp⟩ :=
    generateAllLegalTurns_mem ht
  rcases explore_mem hexp with ⟨hfuel, _, _⟩ | ⟨b', ts', hsteps, hteq⟩
  · exact absurd hfuel (by decide)
  · have hcap : ts'.capturedSquares ≠ [] := by
      apply stepsPlus_captures_nonempty hsteps
      intro fr hlast
      have hfreq : square = fr := by
        simpa [Logic.createEmptyTurnState] using hlast
      rw [← hfreq]
      exact getInitialMoves_jump hj hmI
    rw [hteq]
    exact hcap

set_option maxRecDepth 10000 in
/-- Witness for C1 at the forced-jump position: the hypothesis holds and
the first generated turn indeed captures. -/
theorem mandatory_capture_witness :
    Logic.checkFirstMovePossibleJumps exForcedJumpGs.board_state
      Color.white ≠ [] ∧
    ∀ t ∈ MoveGenerator.generateAllLegalTurns exForcedJumpGs Color.white,
      t.capturedSquares ≠ [] :=
  ⟨by decide, mandatory_capture exForcedJumpGs Color.white (by decide)⟩

/-- C2: a generated turn preserves the mover's piece count and removes
exactly one opposing piece per captured square. -/
theorem piece_count_balance (gs : GameState) (c : Color) :
    ∀ t ∈ MoveGenerator.generateAllLegalTurns gs c,
      countColor t.finalBoardState c = countColor gs.board_state c ∧
      countColor t.finalBoardState c.opp + t.capturedSquares.length =
        countColor gs.board_state c.opp := by
  intro t ht
  obtain ⟨square, piece, m, hsqA, hbs, hcol, hmI, hexp⟩ :=
    generateAllLegalTurns_mem ht
  rcases explore_mem hexp with ⟨hfuel, _, _⟩ | ⟨b', ts', hsteps, hteq⟩
  · exact absurd hfuel (by decide)
  · have hmv0 : ∀ sq ∈ (Logic.createEmptyTurnState square).moves,
        sq ∈ Board.ALL_SQUARES := by
      intro sq hsq2
      simp only [Logic.createEmptyTurnState, List.mem_singleton] at hsq2
      rw [hsq2]
      exact hsqA
    have hcount := stepsPlus_count hsteps (getInitialMoves_valid hmI) hmv0
    rw [hteq]
    refine ⟨hcount.1, ?_⟩
    have h2 := hcount.2
    simp only [Logic.createEmptyTurnState, List.length_nil,
      Nat.add_zero] at h2
    exact h2

set_option maxRecDepth 10000 in
/-- Witness for C2 at the forced-jump position, instantiated at the
first generated turn. -/
theorem piece_count_balance_witness :
    ∃ t ∈ MoveGenerator.generateAllLegalTurns exForcedJumpGs Color.white,
      countColor t.finalBoardState Color.white =
        countColor exForcedJumpGs.board_state Color.white ∧
      countColor t.finalBoardState Color.white.opp +
          t.capturedSquares.length =
        countColor exForcedJumpGs.board_state Color.white.opp := by
  have hne : MoveGenerator.generateAllLegalTurns exForcedJumpGs
      Color.white ≠ [] :=
    List.length_pos.mp (by decide)
  exact ⟨_, List.head_mem hne,
    piece_count_balance exForcedJumpGs Color.white _ (List.head_mem hne)⟩

set_option maxRecDepth 10000 in
/-- Counterexample to C3 as stated: a turn may visit an opponent-castle
square at a non-terminal position, namely its origin (a piece standing
in the opponent castle moves out of it). -/
theorem castle_turn_end_counterexample :
    ¬ (∀ (gs : GameState) (c : Color),
        ∀ t ∈ MoveGenerator.generateAllLegalTurns gs c,
          ∀ sq ∈ t.moves.dropLast, sq ∉ oppCastleOf c) := by
  intro hS
  have hany : (MoveGenerator.generateAllLegalTurns exCastleStartGs
      Color.white).any (fun t => t.moves.dropLast.any
        (fun sq => decide (sq ∈ oppCastleOf Color.white))) = true := by
    decide
  rw [List.any_eq_true] at hany
  obtain ⟨t, ht, h2⟩ := hany
  rw [List.any_eq_true] at h2
  obtain ⟨sq, hsq, hd⟩ := h2
  exact hS exCastleStartGs Color.white t ht sq hsq (of_decide_eq_true hd)

/-- C3 (amended): a step landing in the opponent's castle ends the turn
immediately — no continuations are offered and no continuation is
forced — and consequently no generated turn visits an opponent-castle
square strictly between its first and its last square.  (The first
square itself may lie in the opponent's castle, so the claim's "any
position other than its terminal square" is too strong.) -/
theorem castle_landing_ends_turn (gs : GameState) (c : Color) :
    (∀ (toSq : Square) (b : BoardState) (ts : TurnState) (r : StepOk),
      Logic.executeStep toSq b ts c = .ok r → toSq ∈ oppCastleOf c →
        r.legalNextMoves = [] ∧ r.newTurnState.mustContinue = false) ∧
    (∀ t ∈ MoveGenerator.generateAllLegalTurns gs c,
      ∀ sq ∈ t.moves.tail.dropLast, sq ∉ oppCastleOf c) := by
  constructor
  · intro toSq b ts r hstep hmem
    obtain ⟨fr, piece, _, _, _, _, _, _, _, _, hcastle⟩ :=
      executeStep_ok_spec hstep
    exact hcastle hmem
  · intro t ht sq hsq
    obtain ⟨square, piece, m, hsqA, hbs, hcol, hmI, hexp⟩ :=
      generateAllLegalTurns_mem ht
    rcases explore_mem hexp with ⟨hfuel, _, _⟩ | ⟨b', ts', hsteps, hteq⟩
    · exact absurd hfuel (by decide)
    · have hcast := stepsPlus_castle hsteps
        (by simp [Logic.createEmptyTurnState])
        (by intro sq2 hsq2; simp [Logic.createEmptyTurnState] at hsq2)
      rw [hteq] at hsq
      exact hcast sq hsq

set_option maxRecDepth 10000 in
/-- Witness for C3 (amended) at the castle-start position, instantiated
at the first generated turn. -/
theorem castle_landing_ends_turn_witness :
    ∃ t ∈ MoveGenerator.generateAllLegalTurns exCastleStartGs Color.white,
      ∀ sq ∈ t.moves.tail.dropLast, sq ∉ oppCastleOf Color.white := by
  have hne : MoveGenerator.generateAllLegalTurns exCastleStartGs
      Color.white ≠ [] :=
    List.length_pos.mp (by decide)
  exact ⟨_, List.head_mem hne,
    (castle_landing_ends_turn exCastleStartGs Color.white).2 _
      (List.head_mem hne)⟩

set_option maxRecDepth 10000 in
/-- Counterexample to C4 as stated: in a closed jump cycle the terminal
square equals the origin. -/
theorem revisit_counterexample :
    ¬ (∀ (gs : GameState) (c : Color),
        ∀ t ∈ MoveGenerator.generateAllLegalTurns gs c,
          (∀ sq, sq ≠ t.moves.headI → t.moves.count sq ≤ 1) ∧
          t.endSquare ≠ t.startSquare) := by
  intro hS
  have hany : (MoveGenerator.generateAllLegalTurns exJumpCycleGs
      Color.white).any (fun t => decide (t.endSquare = t.startSquare)) =
        true := by decide
  rw [List.any_eq_true] at hany
  obtain ⟨t, ht, hd⟩ := hany
  exact (hS exJumpCycleGs Color.white t ht).2 (of_decide_eq_true hd)

/-- C4 (amended): within a generated turn no square other than the
origin is visited twice; the terminal square may however coincide with
the origin (a closed jump cycle), so the claim's "never equal to the
origin" is too strong. -/
theorem no_revisit_except_origin (gs : GameState) (c : Color) :
    ∀ t ∈ MoveGenerator.generateAllLegalTurns gs c,
      ∀ sq, sq ≠ t.moves.headI → t.moves.count sq ≤ 1 := by
  intro t ht sq hsq
  obtain ⟨square, piece, m, hsqA, hbs, hcol, hmI, hexp⟩ :=
    generateAllLegalTurns_mem ht
  rcases explore_mem hexp with ⟨hfuel, _, _⟩ | ⟨b', ts', hsteps, hteq⟩
  · exact absurd hfuel (by decide)
  · have hpend : m = (Logic.createEmptyTurnState square).moves.headI ∨
        ¬ m ∈ (Logic.createEmptyTurnState square).moves := by
      by_cases hms : m = square
      · left
        rw [hms]
        rfl
      · right
        simp [Logic.createEmptyTurnState, hms]
    have hcnt0 : ∀ sq2,
        sq2 ≠ (Logic.createEmptyTurnState square).moves.headI →
        (Logic.createEmptyTurnState square).moves.count sq2 ≤ 1 := by
      intro sq2 _
      show List.count sq2 [square] ≤ 1
      exact (List.count_le_length sq2 [square]).trans (by simp)
    have hnr := stepsPlus_no_revisit hsteps
      (by simp [Logic.createEmptyTurnState]) hpend hcnt0
    have hsq2 : sq ≠ ts'.moves.headI := by
      rw [hteq] at hsq
      exact hsq
    rw [hnr.1] at hsq2
    have hfin := hnr.2 sq hsq2
    rw [hteq]
    exact hfin

set_option maxRecDepth 10000 in
/-- Witness for C4 (amended) at the jump-cycle position: the square F9,
different from the first turn's origin, is visited at most once. -/
theorem no_revisit_except_origin_witness :
    ∃ t ∈ MoveGenerator.generateAllLegalTurns exJumpCycleGs Color.white,
      ((5 : Int), (9 : Int)) ≠ t.moves.headI ∧
      t.moves.count ((5 : Int), (9 : Int)) ≤ 1 := by
  have hne : MoveGenerator.generateAllLegalTurns exJumpCycleGs
      Color.white ≠ [] :=
    List.length_pos.mp (by decide)
  refine ⟨(MoveGenerator.generateAllLegalTurns exJumpCycleGs
      Color.white).headI, list_headI_mem hne, ?_, ?_⟩
  · decide
  · exact no_revisit_except_origin exJumpCycleGs Color.white _
      (list_headI_mem hne) _ (by decide)

/-- C5: safety of generation — formalized over the total shallow
embedding as the invariant that every generated turn has a nonempty
path consisting only of addressable board squares, and captures only
addressable board squares, so no internal step or square lookup leaves
the board. -/
theorem generation_safe (gs : GameState) (c : Color) :
    ∀ t ∈ MoveGenerator.generateAllLegalTurns gs c,
      t.moves ≠ [] ∧ (∀ sq ∈ t.moves, sq ∈ Board.ALL_SQUARES) ∧
      ∀ sq ∈ t.capturedSquares, sq ∈ Board.ALL_SQUARES := by
  intro t ht
  obtain ⟨square, piece, m, hsqA, hbs, hcol, hmI, hexp⟩ :=
    generateAllLegalTurns_mem ht
  rcases explore_mem hexp with ⟨hfuel, _, _⟩ | ⟨b', ts', hsteps, hteq⟩
  · exact absurd hfuel (by decide)
  · have hv := stepsPlus_valid hsteps (getInitialMoves_valid hmI)
      (by intro sq hsq
          simp only [Logic.createEmptyTurnState, List.mem_singleton] at hsq
          rw [hsq]
          exact hsqA)
      (by intro sq hsq
          simp [Logic.createEmptyTurnState] at hsq)
    rw [hteq]
    exact hv

set_option maxRecDepth 10000 in
/-- Witness for C5 at the forced-jump position, instantiated at the
first generated turn. -/
theorem generation_safe_witness :
    ∃ t ∈ MoveGenerator.generateAllLegalTurns exForcedJumpGs Color.white,
      t.moves ≠ [] ∧ (∀ sq ∈ t.moves, sq ∈ Board.ALL_SQUARES) ∧
      ∀ sq ∈ t.capturedSquares, sq ∈ Board.ALL_SQUARES := by
  have hne : MoveGenerator.generateAllLegalTurns exForcedJumpGs
      Color.white ≠ [] :=
    List.length_pos.mp (by decide)
  exact ⟨_, List.head_mem hne,
    generation_safe exForcedJumpGs Color.white _ (List.head_mem hne)⟩


end Camelot
